import Mathlib

/-!
Shallow embedding of the bmxtract BMS-to-PCM pipeline (packages/lib/src):
the parsed-chart data model (`bms.rs`), the tempo map (`timeline.rs`), the
event scheduler (`timeline.rs`), and the mixer (`mixer.rs`).

Modelling conventions:
* Rust `f64`/`f32` arithmetic is modelled by exact rationals (`ℚ`); `u16`,
  `u8` and `usize` by `ℕ`.
* Rust `HashMap`/`AHashMap`/`HashSet` are modelled by association lists /
  lists; insertion shadows earlier bindings, lookups return the newest.
* Fallible operations (slice indexing that can panic in Rust) return
  `Option`, with `none` standing for a panic.
* Rust's stable `sort_by` is modelled by `List.insertionSort` (a stable
  sort; stable sorts under the same total preorder produce identical
  output).
-/

unseal Rat.add Rat.mul Rat.sub Rat.inv

/-- Look up a key in an association list, returning the value of the first
matching binding.  Models `HashMap::get` for the maps of the Rust code. -/
def lookupAL {κ β : Type} [BEq κ] (l : List (κ × β)) (k : κ) : Option β :=
  (l.find? (fun p => p.1 == k)).map Prod.snd

/-- Insert a binding into an association-list map.  The new binding shadows
any older one with the same key, giving `HashMap::insert` semantics. -/
def insertAL {κ β : Type} [BEq κ] (l : List (κ × β)) (k : κ) (v : β) : List (κ × β) :=
  (k, v) :: l

/-- Remove every binding with the given key.  Models `HashMap::remove`. -/
def removeAL {κ β : Type} [BEq κ] (l : List (κ × β)) (k : κ) : List (κ × β) :=
  l.filter (fun p => !(p.1 == k))

/-- Lower-case an ASCII letter, leaving every other character unchanged,
mirroring Rust's `u8::to_ascii_lowercase`. -/
def asciiLower (c : Char) : Char :=
  if 'A' ≤ c ∧ c ≤ 'Z' then Char.ofNat (c.toNat + 32) else c

/-- Upper-case an ASCII letter, leaving every other character unchanged.
Models Rust `String::to_uppercase` on the ASCII object tokens it is
applied to. -/
def asciiUpper (c : Char) : Char :=
  if 'a' ≤ c ∧ c ≤ 'z' then Char.ofNat (c.toNat - 32) else c

/-- Per-character upper-casing of a string. -/
def strUpper (s : String) : String :=
  ⟨s.data.map asciiUpper⟩

/-- ASCII-case-insensitive string equality, modelling Rust
`str::eq_ignore_ascii_case`. -/
def eqIgnoreAsciiCase (s t : String) : Bool :=
  s.data.map asciiLower == t.data.map asciiLower

/-- Value of a hexadecimal digit character, if any. -/
def hexDigitVal? (c : Char) : Option ℕ :=
  if '0' ≤ c ∧ c ≤ '9' then some (c.toNat - '0'.toNat)
  else if 'a' ≤ c ∧ c ≤ 'f' then some (c.toNat - 'a'.toNat + 10)
  else if 'A' ≤ c ∧ c ≤ 'F' then some (c.toNat - 'A'.toNat + 10)
  else none

/-- Model of Rust `u8::from_str_radix(s, 16)`: an optional leading `+`,
then at least one hex digit, with the accumulated value kept within `u8`
range (overflow is an error).  (A leading `-` errs for nonzero values and
is irrelevant here since callers only use strictly positive results.) -/
def u8FromStrRadix16? (s : String) : Option ℕ :=
  let cs := match s.data with
    | '+' :: rest => rest
    | cs => cs
  if cs.isEmpty then none
  else cs.foldl (fun acc c =>
    match acc, hexDigitVal? c with
    | some a, some d => if a * 16 + d ≤ 255 then some (a * 16 + d) else none
    | _, _ => none) (some 0)

/-- Header metadata and lookup tables of a BMS chart (`bms.rs::Header`).
Only the fields read by the timeline/mixer stages are modelled; the purely
informational metadata fields (genre, title, artist, ...) are never read
by the functions under verification and are omitted. -/
structure Header where
  bpm : ℚ
  ln_type : Option ℕ
  ln_obj : Option String
  audio_files : List (String × String)
  bpm_table : List (String × ℚ)
  stop_table : List (String × ℚ)
deriving DecidableEq

/-- A per-measure, per-channel message with its 2-character object tokens
(`bms.rs::Message`).  `measure : u16` and `channel : u8` become `ℕ`. -/
structure Message where
  measure : ℕ
  channel : ℕ
  objects : List String
deriving DecidableEq

/-- Parsed BMS chart (`bms.rs::Bms`). -/
structure Bms where
  header : Header
  messages : List Message
  measure_multipliers : List (ℕ × ℚ)
deriving DecidableEq

/-- A scheduled audio event on the timeline (`timeline.rs::SoundEvent`).
The source field `end` is a reserved word in Lean and is written `end_`. -/
structure SoundEvent where
  key_id : ℕ
  start : ℕ
  end_ : Option ℕ
deriving DecidableEq

/-- A point-in-time tempo marker with its absolute timestamp
(`timeline.rs::TempoEvent`). -/
structure TempoEvent where
  measure : ℕ
  position : ℚ
  bpm : ℚ
  timestamp_sec : ℚ
deriving DecidableEq

instance : Inhabited TempoEvent := ⟨⟨0, 0, 0, 0⟩⟩

/-- A precomputed tempo timeline (`timeline.rs::TempoMap`). -/
structure TempoMap where
  base_measure : ℕ
  events : List TempoEvent
  measure_multipliers : List (ℕ × ℚ)
  mult_vec : List ℚ
  cum_mult : List ℚ
deriving DecidableEq

/-- Internal intermediate carrying a raw tempo change
(`timeline.rs::RawTempoChange`). -/
structure RawTempoChange where
  measure : ℕ
  position : ℚ
  bpm : ℚ
deriving DecidableEq

/-- Internal intermediate carrying a STOP event (`timeline.rs::StopEvent`). -/
structure StopEvent where
  measure : ℕ
  position : ℚ
  duration_192nds : ℚ
deriving DecidableEq

/-- Model of `slice::binary_search_by` from the Rust standard library,
specialised to a comparator.  Returns `Sum.inl idx` for `Ok(idx)` and
`Sum.inr idx` for `Err(idx)`.  The `fuel` argument only serves
termination; every interval strictly shrinks, so `length + 1` fuel always
suffices at the call site. -/
def binarySearchLoop (cmp : TempoEvent → Ordering) (events : List TempoEvent) :
    ℕ → ℕ → ℕ → Sum ℕ ℕ
  | 0, left, _ => Sum.inr left
  | fuel + 1, left, right =>
    if left < right then
      let size := right - left
      let mid := left + size / 2
      match cmp ((events.get? mid).getD default) with
      | Ordering.lt => binarySearchLoop cmp events fuel (mid + 1) right
      | Ordering.gt => binarySearchLoop cmp events fuel left mid
      | Ordering.eq => Sum.inl mid
    else Sum.inr left

/-- Total-order comparison of two rationals, modelling
`f64::partial_cmp(..).unwrap_or(Equal)` on values that are never NaN. -/
def cmpRat (x y : ℚ) : Ordering :=
  if x < y then Ordering.lt else if x > y then Ordering.gt else Ordering.eq

/-- The comparator used by `TempoMap::get_timestamp`'s binary search:
lexicographic comparison of `(measure, position)` against the query key. -/
def eventCmp (key_measure : ℕ) (key_pos : ℚ) (e : TempoEvent) : Ordering :=
  if e.measure < key_measure then Ordering.lt
  else if key_measure < e.measure then Ordering.gt
  else cmpRat e.position key_pos

/-- Convert a musical position to an absolute timestamp in seconds
(`timeline.rs::TempoMap::get_timestamp`).  `none` models the two panics the
Rust code can hit: indexing `events[..]` on an empty vector and the direct
(unchecked) accesses `cum_mult[idx_to]` / `cum_mult[idx_from + 1]`. -/
def TempoMap.get_timestamp (self : TempoMap) (measure : ℕ) (position : ℚ) : Option ℚ :=
  if measure < self.base_measure then some 0
  else
    let res := binarySearchLoop (eventCmp measure position) self.events
      (self.events.length + 1) 0 self.events.length
    let last_event_idx := match res with
      | Sum.inl idx => idx
      | Sum.inr 0 => 0
      | Sum.inr idx => idx - 1
    match self.events.get? last_event_idx with
    | none => none
    | some event =>
      if event.measure = measure ∧ event.position = position then some event.timestamp_sec
      else
        let sec_per_beat := 60 / event.bpm
        let base_measure_sec := 4 * sec_per_beat
        if event.measure = measure then
          let mult := (lookupAL self.measure_multipliers measure).getD 1
          some (event.timestamp_sec + (position - event.position) * (base_measure_sec * mult))
        else
          let idx_from := event.measure - self.base_measure
          let idx_to := measure - self.base_measure
          let mult_from := (self.mult_vec.get? idx_from).getD 1
          let mult_to := (self.mult_vec.get? idx_to).getD 1
          let span_between? : Option ℚ :=
            if idx_from + 1 < idx_to then
              match self.cum_mult.get? idx_to, self.cum_mult.get? (idx_from + 1) with
              | some cto, some cfr => some (cto - cfr)
              | _, _ => none
            else some 0
          span_between?.map (fun span_between =>
            event.timestamp_sec +
              ((1 - event.position) * mult_from + span_between + position * mult_to) *
                base_measure_sec)

/-- Convert a musical position to a timestamp in samples
(`timeline.rs::TempoMap::get_timestamp_samples`).  Rust rounds with
`f64::round` (half away from zero) and casts with `as usize` (saturating
at 0); for non-negative values `round` agrees with Lean's `round`, and for
negative results both models yield 0 via `Int.toNat`. -/
def TempoMap.get_timestamp_samples (self : TempoMap) (measure : ℕ) (position : ℚ)
    (sample_rate : ℕ) : Option ℕ :=
  (self.get_timestamp measure position).map
    (fun t => (round (t * (sample_rate : ℚ))).toNat)

/-- Calculate the time difference between two musical positions at a
constant BPM (`timeline.rs::calculate_time_between`).  `none` models the
unchecked `cum_mult` indexing panics. -/
def calculate_time_between (from_measure : ℕ) (from_position : ℚ)
    (to_measure : ℕ) (to_position : ℚ) (bpm : ℚ)
    (measure_multipliers : List (ℕ × ℚ)) (base_measure : ℕ)
    (mult_vec cum_mult : List ℚ) : Option ℚ :=
  let sec_per_beat := 60 / bpm
  let base_measure_sec := 4 * sec_per_beat
  if from_measure = to_measure then
    let mult := (lookupAL measure_multipliers from_measure).getD 1
    some ((to_position - from_position) * (base_measure_sec * mult))
  else
    let idx_from := from_measure - base_measure
    let idx_to := to_measure - base_measure
    let mult_from := (mult_vec.get? idx_from).getD 1
    let mult_to := (mult_vec.get? idx_to).getD 1
    let span_between? : Option ℚ :=
      if idx_from + 1 < idx_to then
        match cum_mult.get? idx_to, cum_mult.get? (idx_from + 1) with
        | some cto, some cfr => some (cto - cfr)
        | _, _ => none
      else some 0
    span_between?.map (fun span_between =>
      ((1 - from_position) * mult_from + span_between + to_position * mult_to) *
        base_measure_sec)

/-- Integration state of `integrate_timeline`: the running absolute time,
the current musical position, and the currently effective BPM. -/
structure IntState where
  time : ℚ
  measure : ℕ
  position : ℚ
  bpm : ℚ
deriving DecidableEq

/-- The inner `while` loop of `integrate_timeline`: consume every pending
stop that strictly precedes the tempo change `tc`, advancing time across
the gap and then by the stop duration, and emitting a `TempoEvent` at the
stop with the (unchanged) current BPM. -/
def consumeStops (measure_multipliers : List (ℕ × ℚ)) (base_measure : ℕ)
    (mult_vec cum_mult : List ℚ) (tc : RawTempoChange) :
    IntState → List StopEvent → List TempoEvent →
    Option (IntState × List StopEvent × List TempoEvent)
  | st, [], acc => some (st, [], acc)
  | st, stop :: rest, acc =>
    if stop.measure < tc.measure ∨ (stop.measure = tc.measure ∧ stop.position < tc.position) then
      match calculate_time_between st.measure st.position stop.measure stop.position st.bpm
          measure_multipliers base_measure mult_vec cum_mult with
      | none => none
      | some time_to_stop =>
        let stop_duration_sec := (stop.duration_192nds / 48) * (60 / st.bpm)
        let t := st.time + time_to_stop + stop_duration_sec
        consumeStops measure_multipliers base_measure mult_vec cum_mult tc
          ⟨t, stop.measure, stop.position, st.bpm⟩ rest
          (acc ++ [⟨stop.measure, stop.position, st.bpm, t⟩])
    else some (st, stop :: rest, acc)

/-- The outer `for` loop of `integrate_timeline` over the sorted tempo
changes.  When a tempo change lies strictly after the current position the
pending stops before it are consumed and time advances across the gap;
in every case a `TempoEvent` is emitted at the tempo change and the state
moves there. -/
def integrateLoop (measure_multipliers : List (ℕ × ℚ)) (base_measure : ℕ)
    (mult_vec cum_mult : List ℚ) :
    List RawTempoChange → IntState → List StopEvent → List TempoEvent →
    Option (List TempoEvent)
  | [], _, _, acc => some acc
  | tc :: rest, st, stops, acc =>
    if st.measure < tc.measure ∨ (tc.measure = st.measure ∧ st.position < tc.position) then
      match consumeStops measure_multipliers base_measure mult_vec cum_mult tc st stops acc with
      | none => none
      | some (st1, stops1, acc1) =>
        match calculate_time_between st1.measure st1.position tc.measure tc.position st1.bpm
            measure_multipliers base_measure mult_vec cum_mult with
        | none => none
        | some time_delta =>
          let t := st1.time + time_delta
          integrateLoop measure_multipliers base_measure mult_vec cum_mult rest
            ⟨t, tc.measure, tc.position, tc.bpm⟩ stops1
            (acc1 ++ [⟨tc.measure, tc.position, tc.bpm, t⟩])
    else
      integrateLoop measure_multipliers base_measure mult_vec cum_mult rest
        ⟨st.time, tc.measure, tc.position, tc.bpm⟩ stops
        (acc ++ [⟨tc.measure, tc.position, tc.bpm, st.time⟩])

/-- Integrate tempo changes and stop events into a single ordered tempo
timeline (`timeline.rs::integrate_timeline`). -/
def integrate_timeline (tempo_changes : List RawTempoChange) (stops : List StopEvent)
    (measure_multipliers : List (ℕ × ℚ)) (base_measure : ℕ)
    (mult_vec cum_mult : List ℚ) : Option (List TempoEvent) :=
  match tempo_changes with
  | [] => some []
  | t0 :: _ =>
    integrateLoop measure_multipliers base_measure mult_vec cum_mult tempo_changes
      ⟨0, base_measure, 0, t0.bpm⟩ stops []

/-- Raw tempo changes contributed by a single message in `build_tempo_map`:
channel 3 tokens are hex BPMs in `1..=255`, channel 8 tokens are keys into
`bpm_table`; the token `"00"` (case-insensitively) is skipped, and token
`i` of `n` sits at position `i / n`. -/
def msgTempoChanges (bpm_table : List (String × ℚ)) (message : Message) :
    List RawTempoChange :=
  if message.objects.length = 0 then []
  else
    message.objects.enum.filterMap (fun iobj =>
      let position : ℚ := (iobj.1 : ℚ) / (message.objects.length : ℚ)
      let object := iobj.2
      if message.channel = 3 then
        if eqIgnoreAsciiCase object "00" then none
        else match u8FromStrRadix16? object with
          | some bpm_int =>
            if 0 < bpm_int then some ⟨message.measure, position, (bpm_int : ℚ)⟩ else none
          | none => none
      else if message.channel = 8 then
        if eqIgnoreAsciiCase object "00" then none
        else match lookupAL bpm_table object with
          | some bpm => some ⟨message.measure, position, bpm⟩
          | none => none
      else none)

/-- Stop events contributed by a single message in `build_tempo_map`:
channel 9 tokens index `stop_table`; `"00"` is skipped. -/
def msgStops (stop_table : List (String × ℚ)) (message : Message) : List StopEvent :=
  if message.channel = 9 then
    if message.objects.length = 0 then []
    else
      message.objects.enum.filterMap (fun iobj =>
        if eqIgnoreAsciiCase iobj.2 "00" then none
        else match lookupAL stop_table iobj.2 with
          | some stop_val =>
            some ⟨message.measure, (iobj.1 : ℚ) / (message.objects.length : ℚ), stop_val⟩
          | none => none)
  else []

/-- Lexicographic `(measure, position)` order on raw tempo changes, the
total preorder realised by the comparator passed to `sort_by`. -/
def rtcLE (a b : RawTempoChange) : Prop :=
  a.measure < b.measure ∨ (a.measure = b.measure ∧ a.position ≤ b.position)

instance : DecidableRel rtcLE := fun a b => by
  unfold rtcLE; infer_instance

instance : IsTotal RawTempoChange rtcLE := by
  constructor
  intro a b
  unfold rtcLE
  rcases Nat.lt_trichotomy a.measure b.measure with h | h | h
  · exact Or.inl (Or.inl h)
  · rcases le_total a.position b.position with hp | hp
    · exact Or.inl (Or.inr ⟨h, hp⟩)
    · exact Or.inr (Or.inr ⟨h.symm, hp⟩)
  · exact Or.inr (Or.inl h)

instance : IsTrans RawTempoChange rtcLE := by
  constructor
  intro a b c hab hbc
  unfold rtcLE at hab hbc ⊢
  rcases hab with h1 | ⟨h1, h1p⟩
  · rcases hbc with h2 | ⟨h2, _⟩
    · exact Or.inl (h1.trans h2)
    · exact Or.inl (h2 ▸ h1)
  · rcases hbc with h2 | ⟨h2, h2p⟩
    · exact Or.inl (h1 ▸ h2)
    · exact Or.inr ⟨h1.trans h2, h1p.trans h2p⟩

/-- Lexicographic `(measure, position)` order on stop events. -/
def stopLE (a b : StopEvent) : Prop :=
  a.measure < b.measure ∨ (a.measure = b.measure ∧ a.position ≤ b.position)

instance : DecidableRel stopLE := fun a b => by
  unfold stopLE; infer_instance

instance : IsTotal StopEvent stopLE := by
  constructor
  intro a b
  unfold stopLE
  rcases Nat.lt_trichotomy a.measure b.measure with h | h | h
  · exact Or.inl (Or.inl h)
  · rcases le_total a.position b.position with hp | hp
    · exact Or.inl (Or.inr ⟨h, hp⟩)
    · exact Or.inr (Or.inr ⟨h.symm, hp⟩)
  · exact Or.inr (Or.inl h)

instance : IsTrans StopEvent stopLE := by
  constructor
  intro a b c hab hbc
  unfold stopLE at hab hbc ⊢
  rcases hab with h1 | ⟨h1, h1p⟩
  · rcases hbc with h2 | ⟨h2, _⟩
    · exact Or.inl (h1.trans h2)
    · exact Or.inl (h2 ▸ h1)
  · rcases hbc with h2 | ⟨h2, h2p⟩
    · exact Or.inl (h1 ▸ h2)
    · exact Or.inr ⟨h1.trans h2, h1p.trans h2p⟩

/-- Minimum measure appearing in the chart's messages, or 0
(`build_tempo_map`'s `base_measure`). -/
def baseMeasureOf (bms : Bms) : ℕ :=
  ((bms.messages.map Message.measure).min?).getD 0

/-- Maximum of all message measures and all `measure_multipliers` keys,
with `base_measure` as the fallback (`build_tempo_map`'s `max_measure`). -/
def maxMeasureOf (bms : Bms) : ℕ :=
  max (((bms.messages.map Message.measure).max?).getD (baseMeasureOf bms))
    (((bms.measure_multipliers.map Prod.fst).max?).getD (baseMeasureOf bms))

/-- Dense per-measure multiplier vector indexed from `base_measure`
(`build_tempo_map`'s `mult_vec`); absent measures default to 1. -/
def multVecOf (bms : Bms) : List ℚ :=
  (List.range (maxMeasureOf bms - baseMeasureOf bms + 1)).map
    (fun k => (lookupAL bms.measure_multipliers (baseMeasureOf bms + k)).getD 1)

/-- Running prefix sums: `cumAux acc l` pushes `acc` before adding each
element, exactly like the Rust loop building `cum_mult`. -/
def cumAux (acc : ℚ) : List ℚ → List ℚ
  | [] => []
  | v :: rest => acc :: cumAux (acc + v) rest

/-- Cumulative multipliers (`build_tempo_map`'s `cum_mult`):
`cum_mult[k]` is the sum of the first `k` entries of `mult_vec`. -/
def cumMultOf (mult_vec : List ℚ) : List ℚ :=
  cumAux 0 mult_vec

/-- Build a `TempoMap` from a parsed BMS chart
(`timeline.rs::build_tempo_map`).  The seed tempo change at
`(base_measure, 0)` carries the header BPM; tempo changes and stops are
stably sorted by `(measure, position)` before integration. -/
def build_tempo_map (bms : Bms) : Option TempoMap :=
  let base_measure := baseMeasureOf bms
  let mult_vec := multVecOf bms
  let cum_mult := cumMultOf mult_vec
  let tempo_changes : List RawTempoChange :=
    ⟨base_measure, 0, bms.header.bpm⟩ ::
      bms.messages.flatMap (msgTempoChanges bms.header.bpm_table)
  let tempo_changes := List.insertionSort rtcLE tempo_changes
  let stops := List.insertionSort stopLE (bms.messages.flatMap (msgStops bms.header.stop_table))
  (integrate_timeline tempo_changes stops bms.measure_multipliers base_measure
      mult_vec cum_mult).map
    (fun events => ⟨base_measure, events, bms.measure_multipliers, mult_vec, cum_mult⟩)

/-- Note-bearing channels accepted by `extract_sound_events`. -/
def allowedChannel (ch : ℕ) : Prop :=
  ch = 1 ∨ (37 ≤ ch ∧ ch ≤ 45) ∨ (73 ≤ ch ∧ ch ≤ 81) ∨
    (181 ≤ ch ∧ ch ≤ 189) ∨ (217 ≤ ch ∧ ch ≤ 225)

instance : DecidablePred allowedChannel := fun ch => by
  unfold allowedChannel; infer_instance

/-- Long-note channels (`[181,189] ∪ [217,225]`). -/
def lnChannel (ch : ℕ) : Prop :=
  (181 ≤ ch ∧ ch ≤ 189) ∨ (217 ≤ ch ∧ ch ≤ 225)

instance : DecidablePred lnChannel := fun ch => by
  unfold lnChannel; infer_instance

/-- Mutable state of `extract_sound_events`: the type-2 per-channel active
long note (`ln_56_active`), the type-1 per-channel open-id sets
(`ln_56_open_ids`), and the accumulated events (in reverse push order;
the dead local `max_ev_measure`, written but never read, is omitted). -/
structure ExtState where
  ln_active : List (ℕ × (String × ℚ))
  ln_open_ids : List (ℕ × List String)
  events : List SoundEvent
deriving DecidableEq

/-- Per-token body of `extract_sound_events` for a token at index `i`. -/
def processToken (bms : Bms) (tempo_map : TempoMap) (filename_to_id : List (String × ℕ))
    (sample_rate : ℕ) (channels : ℕ) (msg_measure : ℕ) (ch : ℕ) (num_objects : ℕ)
    (st : ExtState) (i : ℕ) (object : String) : Option ExtState :=
  let position : ℚ := (i : ℚ) / (num_objects : ℚ)
  match tempo_map.get_timestamp msg_measure position,
      tempo_map.get_timestamp_samples msg_measure position sample_rate with
  | some object_time, some ts_samples =>
    let start_sample := ts_samples * channels
    if lnChannel ch then
      let ln_type := bms.header.ln_type.getD 1
      let is_zero := eqIgnoreAsciiCase object "00"
      if ln_type = 2 then
        if (match bms.header.ln_obj with
            | some ln_end_id => eqIgnoreAsciiCase object ln_end_id
            | none => false) then
          some { st with ln_active := removeAL st.ln_active ch }
        else if is_zero = false then
          let filename_opt := lookupAL bms.header.audio_files object
          let st1 :=
            match filename_opt with
            | some filename =>
              if (lookupAL st.ln_active ch).isSome = false then
                { st with ln_active := insertAL st.ln_active ch (filename, object_time) }
              else st
            | none => st
          match filename_opt with
          | some filename =>
            match lookupAL filename_to_id filename with
            | some kid =>
              some { st1 with events := ⟨kid, start_sample, none⟩ :: st1.events }
            | none => some st1
          | none => some st1
        else
          some { st with ln_active := removeAL st.ln_active ch }
      else
        if is_zero then some st
        else
          let entry := (lookupAL st.ln_open_ids ch).getD []
          let id := strUpper object
          if id ∈ entry then
            some { st with ln_open_ids := insertAL st.ln_open_ids ch (entry.erase id) }
          else
            let st1 :=
              match lookupAL bms.header.audio_files object with
              | some filename =>
                match lookupAL filename_to_id filename with
                | some kid => { st with events := ⟨kid, start_sample, none⟩ :: st.events }
                | none => st
              | none => st
            some { st1 with ln_open_ids := insertAL st1.ln_open_ids ch (id :: entry) }
    else
      match lookupAL bms.header.audio_files object with
      | some filename =>
        match lookupAL filename_to_id filename with
        | some kid => some { st with events := ⟨kid, start_sample, none⟩ :: st.events }
        | none => some st
      | none => some st
  | _, _ => none

/-- Fold `processToken` over the indexed tokens of one message. -/
def processTokens (bms : Bms) (tempo_map : TempoMap) (filename_to_id : List (String × ℕ))
    (sample_rate : ℕ) (channels : ℕ) (msg_measure : ℕ) (ch : ℕ) (num_objects : ℕ) :
    ExtState → List (ℕ × String) → Option ExtState
  | st, [] => some st
  | st, iobj :: rest =>
    match processToken bms tempo_map filename_to_id sample_rate channels msg_measure ch
        num_objects st iobj.1 iobj.2 with
    | none => none
    | some st1 =>
      processTokens bms tempo_map filename_to_id sample_rate channels msg_measure ch
        num_objects st1 rest

/-- Fold over all messages of the chart, skipping disallowed channels and
empty token lists, as in the outer loop of `extract_sound_events`. -/
def processMessages (bms : Bms) (tempo_map : TempoMap) (filename_to_id : List (String × ℕ))
    (sample_rate : ℕ) (channels : ℕ) : ExtState → List Message → Option ExtState
  | st, [] => some st
  | st, message :: rest =>
    let ch := message.channel
    if allowedChannel ch then
      if message.objects.length = 0 then
        processMessages bms tempo_map filename_to_id sample_rate channels st rest
      else
        match processTokens bms tempo_map filename_to_id sample_rate channels message.measure
            ch message.objects.length st message.objects.enum with
        | none => none
        | some st1 =>
          processMessages bms tempo_map filename_to_id sample_rate channels st1 rest
    else processMessages bms tempo_map filename_to_id sample_rate channels st rest

/-- Extract timeline `SoundEvent`s from a BMS chart and a tempo map
(`timeline.rs::extract_sound_events`). -/
def extract_sound_events (bms : Bms) (tempo_map : TempoMap)
    (filename_to_id : List (String × ℕ)) (sample_rate : ℕ) (channels : ℕ) :
    Option (List SoundEvent) :=
  (processMessages bms tempo_map filename_to_id sample_rate channels
      ⟨[], [], []⟩ bms.messages).map
    (fun st => st.events.reverse)

/-- Modelled from the spec: the mix target sample rate (`audio::MIX_SR`,
44100 Hz).  The constant is referenced by `mixer.rs` but its defining
module text is not part of the provided sources. -/
def MIX_SR : ℕ := 44100

/-- Modelled from the spec: the mix target channel count (`audio::MIX_CH`,
2 interleaved channels).  The constant is referenced by `mixer.rs` but its
defining module text is not part of the provided sources. -/
def MIX_CH : ℕ := 2

/-- Chunk duration in seconds for parallel processing
(`mixer.rs::CHUNK_SIZE_SECONDS`). -/
def CHUNK_SIZE_SECONDS : ℕ := 1

/-- Reference to a scheduled sound event (`mixer.rs::EventRef`); the
source field `end` is written `end_`. -/
structure EventRef where
  key_id : ℕ
  start : ℕ
  end_ : ℕ
deriving DecidableEq

/-- Result of pre-processing events for mixing (`mixer.rs::Prepared`). -/
structure Prepared where
  events : List EventRef
  total_len : ℕ
deriving DecidableEq

/-- Ascending-`start` order on event references, the total preorder of
`sort_by(|a, b| a.start.cmp(&b.start))`. -/
def erLE (a b : EventRef) : Prop :=
  a.start ≤ b.start

instance : DecidableRel erLE := fun a b => by
  unfold erLE; infer_instance

instance : IsTotal EventRef erLE := by
  constructor
  intro a b
  unfold erLE
  exact Nat.le_total a.start b.start

instance : IsTrans EventRef erLE := by
  constructor
  intro a b c hab hbc
  exact Nat.le_trans hab hbc

/-- First pass of `prepare_events`: resolve each event's end (explicit end
or `start + frames * MIX_CH`), drop empty events, and track the running
maximum end as `total_len`.  `none` models the panic of `decoded[kid]`
when `key_id` is out of range. -/
def prePass {α : Type} : List SoundEvent → List (List α × ℕ) → List EventRef → ℕ →
    Option (List EventRef × ℕ)
  | [], _, acc, total_len => some (acc, total_len)
  | ev :: rest, decoded, acc, total_len =>
    match decoded.get? ev.key_id with
    | none => none
    | some d =>
      let frames := d.2
      let start_sample := ev.start
      let natural_end := start_sample + frames * MIX_CH
      let end_sample := ev.end_.getD natural_end
      if start_sample < end_sample then
        prePass rest decoded (acc ++ [⟨ev.key_id, start_sample, end_sample⟩])
          (if total_len < end_sample then end_sample else total_len)
      else prePass rest decoded acc total_len

/-- Second pass of `prepare_events`, walking the sorted events in reverse:
truncate each event at the next start recorded for its key, record its own
start, and drop events that collapse to empty. -/
def revPass : List EventRef → List (ℕ × ℕ) → List EventRef → List EventRef
  | [], _, acc => acc
  | ev :: rest, next_start_for_key, acc =>
    let truncated_end :=
      match lookupAL next_start_for_key ev.key_id with
      | some next_start => if next_start < ev.end_ then next_start else ev.end_
      | none => ev.end_
    let m1 := insertAL next_start_for_key ev.key_id ev.start
    if ev.start < truncated_end then
      revPass rest m1 (acc ++ [⟨ev.key_id, ev.start, truncated_end⟩])
    else revPass rest m1 acc

/-- Validate and arrange timeline events for mixing
(`mixer.rs::prepare_events`). -/
def prepare_events {α : Type} (sound_events : List SoundEvent)
    (decoded : List (List α × ℕ)) : Option Prepared :=
  (prePass sound_events decoded [] 0).map (fun pre =>
    let sorted := List.insertionSort erLE pre.1
    let final_events := (revPass sorted.reverse [] []).reverse
    ⟨final_events, pre.2⟩)

/-- A compact description of how an event overlaps a specific chunk
(`mixer.rs::OverlapSlice`). -/
structure OverlapSlice where
  ev_idx : ℕ
  src_off : ℕ
  dst_off : ℕ
  len : ℕ
deriving DecidableEq

/-- Write `add (buf j) (src (sOff + (j - dOff)))` simultaneously to the
`m` destination positions `dOff + i, ..., dOff + i + m - 1`.  With `m = 8`
this is exactly one `f32x8` load/add/store of `mix_chunk`: all lane reads
see the buffer as it was before the store. -/
def blockAdd {α : Type} (add : α → α → α) (src : ℕ → α) (dOff sOff i m : ℕ)
    (buf : ℕ → α) : ℕ → α :=
  fun j =>
    if dOff + i ≤ j ∧ j < dOff + i + m then add (buf j) (src (sOff + (j - dOff)))
    else buf j

/-- Single scalar update `dst[dOff + i] += src[sOff + i]`. -/
def addAt {α : Type} (add : α → α → α) (src : ℕ → α) (dOff sOff i : ℕ)
    (buf : ℕ → α) : ℕ → α :=
  fun j => if j = dOff + i then add (buf j) (src (sOff + i)) else buf j

/-- Apply one overlap slice the way `mix_chunk` does: 8-wide blocks over
the aligned area `n8 = n & !7` (i.e. `n / 8 * 8`), then a scalar tail. -/
def applySliceSimd {α : Type} (add : α → α → α) (src : ℕ → α) (dOff sOff n : ℕ)
    (buf : ℕ → α) : ℕ → α :=
  let n8 := n / 8 * 8
  let buf1 := (List.range (n8 / 8)).foldl
    (fun b k => blockAdd add src dOff sOff (8 * k) 8 b) buf
  (List.range' n8 (n - n8)).foldl (fun b i => addAt add src dOff sOff i b) buf1

/-- Modelled from the spec: the naive scalar reference mixer for one
slice — "for each slice in order, adds `src[src_off + i]` into
`dst[dst_off + i]` for `i in 0..len`", one element at a time. -/
def applySliceScalar {α : Type} (add : α → α → α) (src : ℕ → α) (dOff sOff n : ℕ)
    (buf : ℕ → α) : ℕ → α :=
  (List.range n).foldl (fun b i => addAt add src dOff sOff i b) buf

/-- Source sample stream of a slice: the decoded buffer of the event the
slice refers to.  Out-of-range reads — which would panic identically in
both the vectorised and the scalar Rust code — are modelled as `zero`. -/
def sliceSrc {α : Type} (zero : α) (events : List EventRef)
    (decoded : List (List α × ℕ)) (sl : OverlapSlice) : ℕ → α :=
  match events.get? sl.ev_idx with
  | some ev =>
    (fun j => (((decoded.get? ev.key_id).map Prod.fst).getD []).getD j zero)
  | none => fun _ => zero

/-- Mix a single chunk into a fresh zeroed buffer using precomputed
overlap slices (`mixer.rs::mix_chunk`), with the 8-lane SIMD adds and the
scalar tail.  The sample type and its addition are parameters, so the
model covers IEEE `f32` addition as an instance. -/
def mix_chunk {α : Type} (add : α → α → α) (zero : α) (ci : ℕ) (events : List EventRef)
    (decoded : List (List α × ℕ)) (precomputed : List (List OverlapSlice))
    (total_len : ℕ) : List α :=
  let chunk_samples := MIX_SR * MIX_CH * CHUNK_SIZE_SECONDS
  let start := ci * chunk_samples
  let stop := min (start + chunk_samples) total_len
  let buf := (precomputed.getD ci []).foldl
    (fun b sl => applySliceSimd add (sliceSrc zero events decoded sl) sl.dst_off sl.src_off sl.len b)
    (fun _ => zero)
  (List.range (stop - start)).map buf

/-- Modelled from the spec: the naive scalar mixer — identical to
`mix_chunk` except that every slice is applied one element at a time. -/
def mixChunkNaive {α : Type} (add : α → α → α) (zero : α) (ci : ℕ) (events : List EventRef)
    (decoded : List (List α × ℕ)) (precomputed : List (List OverlapSlice))
    (total_len : ℕ) : List α :=
  let chunk_samples := MIX_SR * MIX_CH * CHUNK_SIZE_SECONDS
  let start := ci * chunk_samples
  let stop := min (start + chunk_samples) total_len
  let buf := (precomputed.getD ci []).foldl
    (fun b sl => applySliceScalar add (sliceSrc zero events decoded sl) sl.dst_off sl.src_off sl.len b)
    (fun _ => zero)
  (List.range (stop - start)).map buf

/-! Helper lemmas shared by several developments below. -/

/-- A successful association-list lookup returns a value bound in the list. -/
theorem lookupAL_mem {κ β : Type} [BEq κ] [LawfulBEq κ] {l : List (κ × β)} {k : κ} {v : β}
    (h : lookupAL l k = some v) : (k, v) ∈ l := by
  unfold lookupAL at h
  cases hf : l.find? (fun p => p.1 == k) with
  | none => rw [hf] at h; simp at h
  | some p =>
    rw [hf] at h
    simp at h
    have hp := List.find?_some hf
    have hmem := List.mem_of_find?_eq_some hf
    simp at hp
    have : p = (k, v) := by
      cases p with
    | mk a b => simp at hp h ⊢; exact ⟨hp, h⟩
    rw [this] at hmem
    exact hmem

/-- Entry `k` of `cumAux acc l` is `acc` plus the sum of the first `k`
elements of `l`. -/
theorem cumAux_get? (l : List ℚ) : ∀ (acc : ℚ) (k : ℕ), k < l.length →
    (cumAux acc l).get? k = some (acc + (l.take k).sum) := by
  induction l with
  | nil => intro acc k h; simp at h
  | cons v rest ih =>
    intro acc k h
    cases k with
    | zero => simp [cumAux]
    | succ k =>
      simp only [cumAux, List.get?_cons_succ]
      rw [ih (acc + v) k (by simpa using h)]
      simp [List.take_succ_cons, add_assoc]

/-- The length of `cumAux acc l` equals the length of `l`. -/
theorem cumAux_length (l : List ℚ) : ∀ acc : ℚ, (cumAux acc l).length = l.length := by
  induction l with
  | nil => intro acc; simp [cumAux]
  | cons v rest ih => intro acc; simp [cumAux, ih]

/-- Prefix sums of a list of non-negative rationals are monotone. -/
theorem sum_take_mono {l : List ℚ} (hpos : ∀ x ∈ l, 0 ≤ x) {i j : ℕ} (hij : i ≤ j) :
    (l.take i).sum ≤ (l.take j).sum := by
  have hj : j = i + (j - i) := by omega
  rw [hj, List.take_add, List.sum_append]
  have : 0 ≤ ((l.drop i).take (j - i)).sum := by
    apply List.sum_nonneg
    intro x hx
    exact hpos x (List.mem_of_mem_drop (List.mem_of_mem_take hx))
  linarith

/-- Token positions `i / n` with `i < n` lie in `[0, 1)`. -/
theorem tokenPos_mem {i n : ℕ} (h : i < n) :
    0 ≤ (i : ℚ) / (n : ℚ) ∧ (i : ℚ) / (n : ℚ) < 1 := by
  have hn : (0 : ℚ) < (n : ℚ) := by
    have : 0 < n := Nat.lt_of_le_of_lt (Nat.zero_le i) h
    exact_mod_cast this
  constructor
  · positivity
  · rw [div_lt_one hn]
    exact_mod_cast h

/-! Claim C1: the STOP scenario. -/

/-- The C1 chart: header `#STOP01 48` and `#BPM 60`, single data line
`#00009:01` (a STOP referencing stop-table entry `01` at position 0 of
measure 0). -/
def c1bms : Bms :=
  ⟨⟨60, none, none, [], [], [("01", 48)]⟩, [⟨0, 9, ["01"]⟩], []⟩

/-- C1: evaluating the code at the claim's chart.  `get_timestamp(0, 0.0)`
is 0.0 as claimed, but `get_timestamp(1, 0.0)` is 4.0 seconds, not the
claimed 5.0: `integrate_timeline` only flushes stops that strictly precede
a later tempo change, and this chart has no tempo change after the stop,
so the one-beat stop is silently dropped. -/
theorem c1_stop_dropped_eval :
    ((build_tempo_map c1bms).bind (fun tm => tm.get_timestamp 0 0) = some 0)
      ∧ ((build_tempo_map c1bms).bind (fun tm => tm.get_timestamp 1 0) = some 4) := by
  decide

/-! Claim C5: totality of `get_timestamp`. -/

/-- The C5 chart: `#BPM 120` with a single note message at measure 0. -/
def c5bms : Bms :=
  ⟨⟨120, none, none, [("01", "a.wav")], [], []⟩, [⟨0, 1, ["01"]⟩], []⟩

/-- C5: evaluating the code at the failing query.  For the C5 chart the
query `(measure = 2, position = 0.0)` makes `get_timestamp` index
`cum_mult[2]` in a vector of length 1 — an out-of-bounds panic in Rust,
`none` in this model — so `get_timestamp` is not total for measures beyond
the largest referenced measure, contrary to the claim. -/
theorem c5_get_timestamp_panics :
    (build_tempo_map c5bms).map (fun tm => tm.get_timestamp 2 0) = some none := by
  decide

/-! Claim C6: the measure-multiplier scenario. -/

/-- The C6 chart as literally described by the claim: `#BPM 120`, the
measure-length line `#00002:0.5`, and a note message at measure 1 only. -/
def c6bms : Bms :=
  ⟨⟨120, none, none, [("01", "a.wav")], [], []⟩, [⟨1, 1, ["01"]⟩], [(0, 1/2)]⟩

/-- The C6 chart augmented with a note message at measure 0, so that
`base_measure = 0` and measure 0 (with its 0.5 multiplier) is inside the
mapped range. -/
def c6bms0 : Bms :=
  ⟨⟨120, none, none, [("01", "a.wav")], [], []⟩, [⟨0, 1, ["01"]⟩, ⟨1, 1, ["01"]⟩], [(0, 1/2)]⟩

/-- C6 counterexample: on the chart exactly as the claim describes it,
`get_timestamp(1, 0.0)` is 0.0, not 1.0 — `base_measure` is the minimum
measure appearing in messages (here 1, since the `#00002:0.5` line is a
measure-length record, not a message), so measure 0 and its multiplier lie
before the mapped range and contribute no time. -/
theorem c6_counterexample :
    (build_tempo_map c6bms).bind (fun tm => tm.get_timestamp 1 0) = some 0
      ∧ ¬ ((build_tempo_map c6bms).bind (fun tm => tm.get_timestamp 1 0) = some 1) := by
  decide

/-- C6 amended: with an additional note message at measure 0 the chart's
`base_measure` is 0 and the 0.5 multiplier takes effect: measure 0 is
shortened from 2.0 s to 1.0 s and `get_timestamp(1, 0.0) = 1.0`. -/
theorem c6_multiplier_shortens :
    (build_tempo_map c6bms0).bind (fun tm => tm.get_timestamp 1 0) = some 1 := by
  decide

/-! Claim C7: the long-note type-1 pair. -/

/-- The C7 chart: `#BPM 120`, `#WAV01 a.wav`, no `#LNTYPE`, and one
message on channel 181 at measure 0 with tokens `01 00 01`. -/
def c7bms : Bms :=
  ⟨⟨120, none, none, [("01", "a.wav")], [], []⟩, [⟨0, 181, ["01", "00", "01"]⟩], []⟩

/-- C7: under long-note type 1 (no `#LNTYPE`), the channel-181 message
with tokens `01 00 01` emits exactly one `SoundEvent` — key 0 at sample 0,
the position of the first `01` — while `00` is ignored and the second `01`
closes the long note without emitting. -/
theorem c7_long_note_pair :
    (build_tempo_map c7bms).bind
      (fun tm => extract_sound_events c7bms tm [("a.wav", 0)] 44100 2)
      = some [⟨0, 0, none⟩] := by
  decide

/-! Claim C2 and claim C4: `prepare_events`. -/

/-- Input events for the C2 counterexample: two events of the same key
with explicit ends, the earlier one truncated by the later start. -/
def c2events : List SoundEvent :=
  [⟨0, 0, some 101⟩, ⟨0, 50, some 60⟩]

/-- Decoded-source table for the C2 counterexample: one zero-frame source. -/
def c2decoded : List (List ℚ × ℕ) :=
  [([], 0)]

/-- C2 counterexample: `prepare_events` on `c2events`/`c2decoded` returns
`total_len = 101`, but the maximum end over the returned events is 60
(truncation shrank the event that realised the maximum) and 101 is odd, so
both halves of the claim fail: `total_len` is neither the maximum end over
the returned events nor even. -/
theorem c2_counterexample :
    (prepare_events c2events c2decoded).map
      (fun p => decide (p.total_len = ((p.events.map EventRef.end_).max?).getD 0
        ∧ 2 ∣ p.total_len)) = some false := by
  decide

/-! Claim C3: ordering of the tempo-map events. -/

/-- The ordering property claimed for adjacent `TempoEvent`s: lexicographic
`(measure, position)` order together with non-decreasing timestamps. -/
def tempoEventOrd (a b : TempoEvent) : Prop :=
  (a.measure < b.measure ∨ (a.measure = b.measure ∧ a.position ≤ b.position))
    ∧ a.timestamp_sec ≤ b.timestamp_sec

/-- The C3 counterexample chart: header `#BPM -60` (the parser applies no
positivity check to the `#BPM` header) and one channel-3 message at
measure 1 with tokens `00 78`, i.e. a BPM change to 120 at position 1/2. -/
def c3bms : Bms :=
  ⟨⟨-60, none, none, [], [], []⟩, [⟨1, 3, ["00", "78"]⟩], []⟩

/-- The tempo events `build_tempo_map` produces for `c3bms`: integrating
half a measure at -60 BPM advances time by -2 seconds. -/
def c3badEvents : List TempoEvent :=
  [⟨1, 0, -60, 0⟩, ⟨1, 1/2, 120, -2⟩]

/-- C3 counterexample: a parsed chart whose header BPM is negative yields
a tempo map whose adjacent events have strictly decreasing timestamps, so
the claimed ordering invariant fails without a positivity assumption. -/
theorem c3_counterexample :
    (build_tempo_map c3bms).map (fun tm => tm.events) = some c3badEvents
      ∧ ¬ List.Chain' tempoEventOrd c3badEvents := by
  constructor
  · decide
  · simp [c3badEvents, tempoEventOrd, List.chain'_cons]

/-! Claim C2: `prepare_events`' `total_len`. -/

/-- Effective end of an input event against a decoded table: the explicit
end when present, otherwise `start + frames * MIX_CH`. -/
def effectiveEnd {α : Type} (decoded : List (List α × ℕ)) (ev : SoundEvent) : Option ℕ :=
  (decoded.get? ev.key_id).map (fun d => ev.end_.getD (ev.start + d.2 * MIX_CH))


/-- Step equation: the first pass fails when an event's key is out of
range of the decoded table. -/
theorem prePass_cons_none {α : Type} (ev : SoundEvent) (rest : List SoundEvent)
    (decoded : List (List α × ℕ)) (acc : List EventRef) (total : ℕ)
    (hd : decoded.get? ev.key_id = none) :
    prePass (ev :: rest) decoded acc total = none := by
  simp only [prePass, hd]

/-- Step equation for the first pass when the decoded entry exists. -/
theorem prePass_cons_some {α : Type} (ev : SoundEvent) (rest : List SoundEvent)
    (decoded : List (List α × ℕ)) (acc : List EventRef) (total : ℕ) (d : List α × ℕ)
    (hd : decoded.get? ev.key_id = some d) :
    prePass (ev :: rest) decoded acc total =
      (if ev.start < ev.end_.getD (ev.start + d.2 * MIX_CH) then
        prePass rest decoded
          (acc ++ [⟨ev.key_id, ev.start, ev.end_.getD (ev.start + d.2 * MIX_CH)⟩])
          (if total < ev.end_.getD (ev.start + d.2 * MIX_CH) then
            ev.end_.getD (ev.start + d.2 * MIX_CH) else total)
      else prePass rest decoded acc total) := by
  simp only [prePass, hd]

/-- Specification of the first pass of `prepare_events`: the returned
`total_len` dominates the starting accumulator and every surviving
effective end, is realised by the accumulator or by some surviving input
event, and stays even when everything feeding it is even. -/
theorem prePass_spec {α : Type} :
    ∀ (ses : List SoundEvent) (decoded : List (List α × ℕ)) (acc : List EventRef)
      (total : ℕ) (out : List EventRef × ℕ),
      prePass ses decoded acc total = some out →
      total ≤ out.2
      ∧ (∀ ev ∈ ses, ∀ e, effectiveEnd decoded ev = some e → ev.start < e → e ≤ out.2)
      ∧ (out.2 = total ∨
          ∃ ev ∈ ses, ∃ e, effectiveEnd decoded ev = some e ∧ ev.start < e ∧ e = out.2)
      ∧ (2 ∣ total → (∀ ev ∈ ses, 2 ∣ ev.start ∧ ∀ u, ev.end_ = some u → 2 ∣ u) →
          2 ∣ out.2) := by
  intro ses
  induction ses with
  | nil =>
    intro decoded acc total out h
    simp only [prePass] at h
    cases h
    refine ⟨le_refl _, ?_, Or.inl rfl, ?_⟩
    · intro ev hev; simp at hev
    · intro h2 _; exact h2
  | cons ev rest ih =>
    intro decoded acc total out h
    cases hd : decoded.get? ev.key_id with
    | none => rw [prePass_cons_none ev rest decoded acc total hd] at h; exact absurd h (by simp)
    | some d =>
      rw [prePass_cons_some ev rest decoded acc total d hd] at h
      have heff : effectiveEnd decoded ev = some (ev.end_.getD (ev.start + d.2 * MIX_CH)) := by
        rw [effectiveEnd, hd, Option.map_some']
      by_cases hlt : ev.start < ev.end_.getD (ev.start + d.2 * MIX_CH)
      · rw [if_pos hlt] at h
        obtain ⟨h1, h2, h3, h4⟩ := ih decoded _ _ out h
        have htot : total ≤ (if total < ev.end_.getD (ev.start + d.2 * MIX_CH) then
            ev.end_.getD (ev.start + d.2 * MIX_CH) else total) := by
          split <;> omega
        have he0le : ev.end_.getD (ev.start + d.2 * MIX_CH) ≤
            (if total < ev.end_.getD (ev.start + d.2 * MIX_CH) then
              ev.end_.getD (ev.start + d.2 * MIX_CH) else total) := by
          split <;> omega
        refine ⟨le_trans htot h1, ?_, ?_, ?_⟩
        · intro ev' hev' e he hse
          rcases List.mem_cons.mp hev' with hEq | hmem
          · subst hEq
            rw [heff, Option.some_inj] at he
            subst he
            exact le_trans he0le h1
          · exact h2 ev' hmem e he hse
        · rcases h3 with h3 | ⟨ev', hev', e, he, hse, hrel⟩
          · by_cases hte : total < ev.end_.getD (ev.start + d.2 * MIX_CH)
            · refine Or.inr ⟨ev, List.mem_cons_self .., ev.end_.getD (ev.start + d.2 * MIX_CH),
                heff, hlt, ?_⟩
              rw [h3, if_pos hte]
            · left; rw [h3, if_neg hte]
          · exact Or.inr ⟨ev', List.mem_cons_of_mem _ hev', e, he, hse, hrel⟩
        · intro h2tot hall
          apply h4
          · obtain ⟨hs, hu⟩ := hall ev (List.mem_cons_self ..)
            have h2e0 : 2 ∣ ev.end_.getD (ev.start + d.2 * MIX_CH) := by
              cases hend : ev.end_ with
              | none =>
                simp only [hend, Option.getD_none]
                have hch : MIX_CH = 2 := rfl
                rw [hch]
                omega
              | some u =>
                simp only [hend, Option.getD_some]
                exact hu u hend
            split <;> assumption
          · intro ev' hm; exact hall ev' (List.mem_cons_of_mem _ hm)
      · rw [if_neg hlt] at h
        obtain ⟨h1, h2, h3, h4⟩ := ih decoded _ _ out h
        refine ⟨h1, ?_, ?_, ?_⟩
        · intro ev' hev' e he hse
          rcases List.mem_cons.mp hev' with hEq | hmem
          · subst hEq
            rw [heff, Option.some_inj] at he
            subst he
            omega
          · exact h2 ev' hmem e he hse
        · rcases h3 with h3 | ⟨ev', hev', e, he, hse, hrel⟩
          · exact Or.inl h3
          · exact Or.inr ⟨ev', List.mem_cons_of_mem _ hev', e, he, hse, hrel⟩
        · intro h2tot hall
          exact h4 h2tot (fun ev' hm => hall ev' (List.mem_cons_of_mem _ hm))

/-- C2 amended: for every input list and decoded table on which
`prepare_events` returns, `total_len` is the maximum effective end over
the input events that survive the initial drop (`end > start`), taken
before truncation; it is even whenever every input start and every
explicit end is even (as is the case for scheduler output, whose starts
are multiples of `channels = 2`). -/
theorem c2_total_len_spec {α : Type} (ses : List SoundEvent) (decoded : List (List α × ℕ))
    (p : Prepared) (h : prepare_events ses decoded = some p) :
    (∀ ev ∈ ses, ∀ e, effectiveEnd decoded ev = some e → ev.start < e → e ≤ p.total_len)
    ∧ (p.total_len = 0 ∨
        ∃ ev ∈ ses, ∃ e, effectiveEnd decoded ev = some e ∧ ev.start < e ∧ e = p.total_len)
    ∧ ((∀ ev ∈ ses, 2 ∣ ev.start ∧ ∀ u, ev.end_ = some u → 2 ∣ u) → 2 ∣ p.total_len) := by
  unfold prepare_events at h
  rw [Option.map_eq_some'] at h
  obtain ⟨pre, hp, hpre⟩ := h
  obtain ⟨h1, h2, h3, h4⟩ := prePass_spec ses decoded [] 0 pre hp
  have htl : p.total_len = pre.2 := by rw [← hpre]
  refine ⟨?_, ?_, ?_⟩
  · intro ev hev e he hse; rw [htl]; exact h2 ev hev e he hse
  · rw [htl]
    rcases h3 with h3 | h3
    · exact Or.inl h3
    · exact Or.inr h3
  · intro hall; rw [htl]; exact h4 ⟨0, rfl⟩ hall

/-- Witness input events for the C2 amended theorem. -/
def c2wses : List SoundEvent := [⟨0, 2, none⟩]

/-- Witness decoded table for the C2 amended theorem: one source of one
frame (two interleaved samples). -/
def c2wdecoded : List (List ℚ × ℕ) := [([0, 0], 1)]

/-- The `Prepared` value `prepare_events` returns on the C2 witness input. -/
def c2wprep : Prepared := ⟨[⟨0, 2, 4⟩], 4⟩

/-- C2 witness: the amended statement instantiated at a concrete input on
which `prepare_events` succeeds. -/
theorem c2_total_len_witness :
    prepare_events c2wses c2wdecoded = some c2wprep
      ∧ ((∀ ev ∈ c2wses, ∀ e, effectiveEnd c2wdecoded ev = some e → ev.start < e →
            e ≤ c2wprep.total_len)
        ∧ (c2wprep.total_len = 0 ∨
            ∃ ev ∈ c2wses, ∃ e, effectiveEnd c2wdecoded ev = some e ∧ ev.start < e ∧
              e = c2wprep.total_len)
        ∧ ((∀ ev ∈ c2wses, 2 ∣ ev.start ∧ ∀ u, ev.end_ = some u → 2 ∣ u) →
            2 ∣ c2wprep.total_len)) :=
  ⟨by decide, c2_total_len_spec c2wses c2wdecoded c2wprep (by decide)⟩

/-! Claim C4: disjointness of same-key prepared events. -/

/-- Empty-map lookups fail. -/
theorem lookupAL_nil {κ β : Type} [BEq κ] (k : κ) :
    lookupAL ([] : List (κ × β)) k = none := rfl


/-- Lookup after insertion (natural-number keys): the new binding shadows
its key, other keys are unchanged. -/
theorem lookupAL_insert {β : Type} (m : List (ℕ × β)) (k k' : ℕ) (v : β) :
    lookupAL (insertAL m k v) k' = if k = k' then some v else lookupAL m k' := by
  by_cases h : k = k'
  · subst h
    rw [if_pos rfl]
    unfold lookupAL insertAL
    rw [List.find?_cons_of_pos]
    · rfl
    · simp
  · rw [if_neg h]
    unfold lookupAL insertAL
    rw [List.find?_cons_of_neg]
    simp [h]

/-- Backwards form of the same-key disjointness relation: in the reversed
(descending-start) processing order, the later-processed event `b` ends at
or before the earlier-processed event `a` starts. -/
def keyDisjBack (a b : EventRef) : Prop :=
  a.key_id = b.key_id → b.end_ ≤ a.start

/-- Step equation for the reverse truncation pass. -/
theorem revPass_cons (ev : EventRef) (rest : List EventRef) (m : List (ℕ × ℕ))
    (acc : List EventRef) :
    revPass (ev :: rest) m acc =
      (let truncated_end :=
        match lookupAL m ev.key_id with
        | some next_start => if next_start < ev.end_ then next_start else ev.end_
        | none => ev.end_
      if ev.start < truncated_end then
        revPass rest (insertAL m ev.key_id ev.start) (acc ++ [⟨ev.key_id, ev.start, truncated_end⟩])
      else revPass rest (insertAL m ev.key_id ev.start) acc) := rfl

/-- Invariant proof for the reverse truncation pass: processing a
descending-start list with a map recording, for each key, the start of the
most recently processed event of that key, keeps the accumulated output
pairwise disjoint per key. -/
theorem revPass_pairwise :
    ∀ (rl : List EventRef) (m : List (ℕ × ℕ)) (acc : List EventRef),
      List.Pairwise (fun a b => b.start ≤ a.start) rl →
      (∀ x ∈ rl, ∀ k s, lookupAL m k = some s → x.start ≤ s) →
      (∀ x ∈ rl, ∀ e ∈ acc, x.start ≤ e.start) →
      (∀ e ∈ acc, ∀ s, lookupAL m e.key_id = some s → s ≤ e.start) →
      (∀ e ∈ acc, (lookupAL m e.key_id).isSome = true) →
      List.Pairwise keyDisjBack acc →
      List.Pairwise keyDisjBack (revPass rl m acc) := by
  intro rl
  induction rl with
  | nil =>
    intro m acc _ _ _ _ _ h6
    exact h6
  | cons ev rest ih =>
    intro m acc h1 h2 h3 h4 h5 h6
    have hrest_desc := (List.pairwise_cons.mp h1).2
    have hev_ge : ∀ x ∈ rest, x.start ≤ ev.start := (List.pairwise_cons.mp h1).1
    rw [revPass_cons]
    have hstep : ∀ acc1 : List EventRef,
        (∀ x ∈ rest, ∀ e ∈ acc1, x.start ≤ e.start) →
        (∀ e ∈ acc1, ∀ s1, lookupAL (insertAL m ev.key_id ev.start) e.key_id = some s1 →
          s1 ≤ e.start) →
        (∀ e ∈ acc1, (lookupAL (insertAL m ev.key_id ev.start) e.key_id).isSome = true) →
        List.Pairwise keyDisjBack acc1 →
        List.Pairwise keyDisjBack
          (revPass rest (insertAL m ev.key_id ev.start) acc1) := by
      intro acc1 g3 g4 g5 g6
      refine ih (insertAL m ev.key_id ev.start) acc1 hrest_desc ?_ g3 g4 g5 g6
      intro x hx k s1 hs1
      rw [lookupAL_insert] at hs1
      by_cases hk : ev.key_id = k
      · rw [if_pos hk, Option.some_inj] at hs1
        rw [← hs1]
        exact hev_ge x hx
      · rw [if_neg hk] at hs1
        exact h2 x (List.mem_cons_of_mem _ hx) k s1 hs1
    -- facts needed about the (abstracted) truncated end
    have hkeep : ∀ T : ℕ,
        (∀ a ∈ acc, a.key_id = ev.key_id → T ≤ a.start) →
        List.Pairwise keyDisjBack
          (revPass rest (insertAL m ev.key_id ev.start)
            (acc ++ [⟨ev.key_id, ev.start, T⟩])) := by
      intro T hT
      apply hstep
      · intro x hx e he
        rcases List.mem_append.mp he with he | he
        · exact h3 x (List.mem_cons_of_mem _ hx) e he
        · rcases List.mem_singleton.mp he with rfl
          exact hev_ge x hx
      · intro e he s1 hs1
        rw [lookupAL_insert] at hs1
        rcases List.mem_append.mp he with he | he
        · by_cases hk : ev.key_id = e.key_id
          · rw [if_pos hk, Option.some_inj] at hs1
            rw [← hs1]
            exact h3 ev (List.mem_cons_self ..) e he
          · rw [if_neg hk] at hs1
            exact h4 e he s1 hs1
        · rcases List.mem_singleton.mp he with rfl
          rw [if_pos rfl, Option.some_inj] at hs1
          exact le_of_eq hs1.symm
      · intro e he
        rcases List.mem_append.mp he with he | he
        · rw [lookupAL_insert]
          by_cases hk : ev.key_id = e.key_id
          · rw [if_pos hk]; rfl
          · rw [if_neg hk]; exact h5 e he
        · rcases List.mem_singleton.mp he with rfl
          rw [lookupAL_insert, if_pos rfl]; rfl
      · rw [List.pairwise_append]
        refine ⟨h6, by simp [keyDisjBack], ?_⟩
        intro a ha b hb
        rcases List.mem_singleton.mp hb with rfl
        intro hkey
        exact hT a ha hkey
    have hdrop :
        List.Pairwise keyDisjBack (revPass rest (insertAL m ev.key_id ev.start) acc) := by
      apply hstep
      · intro x hx e he; exact h3 x (List.mem_cons_of_mem _ hx) e he
      · intro e he s1 hs1
        rw [lookupAL_insert] at hs1
        by_cases hk : ev.key_id = e.key_id
        · rw [if_pos hk, Option.some_inj] at hs1
          rw [← hs1]
          exact h3 ev (List.mem_cons_self ..) e he
        · rw [if_neg hk] at hs1
          exact h4 e he s1 hs1
      · intro e he
        rw [lookupAL_insert]
        by_cases hk : ev.key_id = e.key_id
        · rw [if_pos hk]; rfl
        · rw [if_neg hk]; exact h5 e he
      · exact h6
    cases hm : lookupAL m ev.key_id with
    | some s =>
      simp only [hm]
      have hsa : ∀ a ∈ acc, a.key_id = ev.key_id → s ≤ a.start := by
        intro a ha hkey
        exact h4 a ha s (by rw [hkey]; exact hm)
      split
      · -- truncated to the recorded next start
        split
        · exact hkeep s hsa
        · exact hdrop
      · -- the recorded next start does not shorten the event
        rename_i hnotlt
        split
        · refine hkeep ev.end_ ?_
          intro a ha hkey
          have := hsa a ha hkey
          omega
        · exact hdrop
    | none =>
      simp only [hm]
      have hTle : ∀ a ∈ acc, a.key_id = ev.key_id → ev.end_ ≤ a.start := by
        intro a ha hkey
        have hsome := h5 a ha
        rw [hkey, hm] at hsome
        cases hsome
      split
      · exact hkeep _ hTle
      · exact hdrop

/-- C4: any two events in the output of `prepare_events` that share a
`key_id` have disjoint `[start, end)` intervals — the pass truncates each
event at the next start recorded for its key, so any same-key pair is
ordered end-before-start one way or the other. -/
theorem c4_prepared_disjoint {α : Type} (ses : List SoundEvent)
    (decoded : List (List α × ℕ)) (p : Prepared)
    (h : prepare_events ses decoded = some p) :
    List.Pairwise (fun a b =>
      a.key_id = b.key_id → a.end_ ≤ b.start ∨ b.end_ ≤ a.start) p.events := by
  unfold prepare_events at h
  rw [Option.map_eq_some'] at h
  obtain ⟨pre, hp, hpre⟩ := h
  have hev : p.events = (revPass (List.insertionSort erLE pre.1).reverse [] []).reverse := by
    rw [← hpre]
  have hsorted : List.Pairwise erLE (List.insertionSort erLE pre.1) :=
    List.sorted_insertionSort erLE pre.1
  have hdesc : List.Pairwise (fun a b : EventRef => b.start ≤ a.start)
      (List.insertionSort erLE pre.1).reverse := by
    rw [List.pairwise_reverse]
    exact hsorted.imp (fun hab => hab)
  have hpw := revPass_pairwise (List.insertionSort erLE pre.1).reverse [] [] hdesc
    (by intro x _ k s hs; rw [lookupAL_nil] at hs; cases hs)
    (by intro x _ e he; cases he)
    (by intro e he; cases he)
    (by intro e he; cases he)
    List.Pairwise.nil
  rw [hev, List.pairwise_reverse]
  exact hpw.imp (fun kd hk => Or.inl (kd hk.symm))

/-- Witness input events for C4. -/
def c4wses : List SoundEvent := [⟨0, 0, none⟩, ⟨0, 2, none⟩]

/-- Witness decoded table for C4: one source of three frames. -/
def c4wdecoded : List (List ℚ × ℕ) := [([], 3)]

/-- The `Prepared` value on the C4 witness input: the earlier event is
truncated at the later event's start. -/
def c4wprep : Prepared := ⟨[⟨0, 0, 2⟩, ⟨0, 2, 8⟩], 8⟩

/-- C4 witness: the disjointness theorem instantiated at a concrete input
on which `prepare_events` succeeds and truncates. -/
theorem c4_disjoint_witness :
    prepare_events c4wses c4wdecoded = some c4wprep
      ∧ List.Pairwise (fun a b =>
          a.key_id = b.key_id → a.end_ ≤ b.start ∨ b.end_ ≤ a.start) c4wprep.events :=
  ⟨by decide, c4_prepared_disjoint c4wses c4wdecoded c4wprep (by decide)⟩

/-! Claim C9: the SIMD mixing loop equals the naive scalar sum. -/

/-- Peeling one scalar update off the front of a block write: the lanes of
a block read the buffer before any write of the same block lands on it,
and all written positions are distinct, so the simultaneous block write
equals updating position `i` first and block-writing the remaining `m`
positions. -/
theorem blockAdd_succ {α : Type} (add : α → α → α) (src : ℕ → α) (dOff sOff i m : ℕ)
    (buf : ℕ → α) :
    blockAdd add src dOff sOff i (m + 1) buf
      = blockAdd add src dOff sOff (i + 1) m (addAt add src dOff sOff i buf) := by
  funext j
  simp only [blockAdd, addAt]
  by_cases h1 : j = dOff + i
  · rw [if_pos (by omega : dOff + i ≤ j ∧ j < dOff + i + (m + 1)),
      if_neg (by omega : ¬(dOff + (i + 1) ≤ j ∧ j < dOff + (i + 1) + m)), if_pos h1]
    have hidx : j - dOff = i := by omega
    rw [hidx]
  · by_cases h2 : dOff + (i + 1) ≤ j ∧ j < dOff + (i + 1) + m
    · rw [if_pos (by omega : dOff + i ≤ j ∧ j < dOff + i + (m + 1)), if_pos h2, if_neg h1]
    · rw [if_neg (by omega : ¬(dOff + i ≤ j ∧ j < dOff + i + (m + 1))), if_neg h2, if_neg h1]

/-- A fold of scalar updates over the consecutive indices
`i, i+1, ..., i+m-1` equals the simultaneous block write of width `m`. -/
theorem range'_foldl_addAt {α : Type} (add : α → α → α) (src : ℕ → α) (dOff sOff : ℕ) :
    ∀ (m i : ℕ) (buf : ℕ → α),
      (List.range' i m).foldl (fun b j => addAt add src dOff sOff j b) buf
        = blockAdd add src dOff sOff i m buf := by
  intro m
  induction m with
  | zero =>
    intro i buf
    have hnil : (List.range' i 0).foldl (fun b j => addAt add src dOff sOff j b) buf = buf :=
      rfl
    rw [hnil]
    funext j
    simp only [blockAdd]
    rw [if_neg (by omega)]
  | succ m ih =>
    intro i buf
    rw [List.range'_succ, List.foldl_cons, ih (i + 1), ← blockAdd_succ]

/-- Folding `q` aligned 8-wide block writes equals folding `8 * q` scalar
updates over `0, ..., 8q - 1`. -/
theorem blocks_foldl_eq {α : Type} (add : α → α → α) (src : ℕ → α) (dOff sOff : ℕ) :
    ∀ (q : ℕ) (buf : ℕ → α),
      (List.range q).foldl (fun b k => blockAdd add src dOff sOff (8 * k) 8 b) buf
        = (List.range (8 * q)).foldl (fun b i => addAt add src dOff sOff i b) buf := by
  intro q
  induction q with
  | zero => intro buf; rfl
  | succ q ih =>
    intro buf
    rw [List.range_succ, List.foldl_append, ih]
    have happ := List.range'_append 0 (8 * q) 8 1
    simp only [one_mul, Nat.zero_add] at happ
    have h1 : 8 * (q + 1) = 8 + 8 * q := by ring
    have hsplit : List.range (8 * (q + 1)) = List.range (8 * q) ++ List.range' (8 * q) 8 := by
      rw [List.range_eq_range' (8 * (q + 1)), List.range_eq_range' (8 * q), h1]
      exact happ.symm
    rw [hsplit, List.foldl_append, range'_foldl_addAt]
    rfl

/-- Applying one overlap slice with 8-wide blocks plus a scalar tail is
exactly the naive one-element-at-a-time application. -/
theorem applySliceSimd_eq_scalar {α : Type} (add : α → α → α) (src : ℕ → α)
    (dOff sOff n : ℕ) (buf : ℕ → α) :
    applySliceSimd add src dOff sOff n buf = applySliceScalar add src dOff sOff n buf := by
  unfold applySliceSimd applySliceScalar
  simp only
  have h1 : n / 8 * 8 / 8 = n / 8 := by
    rw [Nat.mul_div_cancel]
    norm_num
  have h2 : 8 * (n / 8) = n / 8 * 8 := by ring
  rw [h1, blocks_foldl_eq, h2]
  have hle : n / 8 * 8 ≤ n := Nat.div_mul_le_self n 8
  have happ := List.range'_append 0 (n / 8 * 8) (n - n / 8 * 8) 1
  simp only [one_mul, Nat.zero_add] at happ
  have hsplit : List.range n = List.range (n / 8 * 8) ++ List.range' (n / 8 * 8) (n - n / 8 * 8) := by
    rw [List.range_eq_range' n, List.range_eq_range' (n / 8 * 8)]
    have hn : n - n / 8 * 8 + n / 8 * 8 = n := by omega
    conv_lhs => rw [← hn]
    exact happ.symm
  rw [hsplit, List.foldl_append]

/-- C9: for every chunk index, event list, decoded-source table and
precomputed overlap slices, and for any sample type with any addition
(hence in particular IEEE `f32` addition), the buffer `mix_chunk` returns
using 8-lane block adds with a scalar tail is element-for-element equal to
the naive scalar mixer that adds `src[src_off + i]` into
`dst[dst_off + i]` for `i in 0..len`, slice by slice. -/
theorem c9_mix_chunk_eq_naive {α : Type} (add : α → α → α) (zero : α) (ci : ℕ)
    (events : List EventRef) (decoded : List (List α × ℕ))
    (precomputed : List (List OverlapSlice)) (total_len : ℕ) :
    mix_chunk add zero ci events decoded precomputed total_len
      = mixChunkNaive add zero ci events decoded precomputed total_len := by
  unfold mix_chunk mixChunkNaive
  simp only [applySliceSimd_eq_scalar]

/-! Claim C10: frame alignment and key provenance of scheduled events. -/

/-- The per-event property claimed: the start is a multiple of the
`channels` argument and the key is a value of the `filename_to_id` map. -/
def goodEvent (filename_to_id : List (String × ℕ)) (channels : ℕ) (e : SoundEvent) : Prop :=
  channels ∣ e.start ∧ ∃ f, lookupAL filename_to_id f = some e.key_id

/-- Any event `processToken` adds has a start of the form
`samples * channels` and a key obtained from `filename_to_id`. -/
theorem processToken_good (bms : Bms) (tmap : TempoMap) (f2id : List (String × ℕ))
    (sr channels msg_measure ch num_objects : ℕ) (st : ExtState) (i : ℕ) (object : String)
    (st1 : ExtState)
    (h : processToken bms tmap f2id sr channels msg_measure ch num_objects st i object
      = some st1)
    (hst : ∀ e ∈ st.events, goodEvent f2id channels e) :
    ∀ e ∈ st1.events, goodEvent f2id channels e := by
  simp only [processToken] at h
  cases hts : TempoMap.get_timestamp tmap msg_measure ((i : ℚ) / (num_objects : ℚ)) with
  | none => rw [hts] at h; exact absurd h (by simp)
  | some t =>
  cases hsm : TempoMap.get_timestamp_samples tmap msg_measure
      ((i : ℚ) / (num_objects : ℚ)) sr with
  | none => rw [hts, hsm] at h; exact absurd h (by simp)
  | some s =>
  rw [hts, hsm] at h
  simp only at h
  by_cases hln : lnChannel ch
  · rw [if_pos hln] at h
    by_cases h2t : bms.header.ln_type.getD 1 = 2
    · rw [if_pos h2t] at h
      by_cases hobj : (match bms.header.ln_obj with
          | some ln_end_id => eqIgnoreAsciiCase object ln_end_id
          | none => false) = true
      · rw [if_pos hobj] at h
        obtain rfl := Option.some_inj.mp h
        exact hst
      · rw [if_neg hobj] at h
        by_cases hz : eqIgnoreAsciiCase object "00" = false
        · rw [if_pos hz] at h
          cases hfo : lookupAL bms.header.audio_files object with
          | none =>
            rw [hfo] at h
            simp only at h
            obtain rfl := Option.some_inj.mp h
            exact hst
          | some filename =>
            rw [hfo] at h
            simp only at h
            cases hkid : lookupAL f2id filename with
            | none =>
              rw [hkid] at h
              simp only at h
              obtain rfl := Option.some_inj.mp h
              by_cases hact : (lookupAL st.ln_active ch).isSome = false
              · rw [if_pos hact]; exact hst
              · rw [if_neg hact]; exact hst
            | some kid =>
              rw [hkid] at h
              simp only at h
              obtain rfl := Option.some_inj.mp h
              intro e he
              rcases List.mem_cons.mp he with rfl | he2
              · exact ⟨dvd_mul_left channels _, filename, hkid⟩
              · by_cases hact : (lookupAL st.ln_active ch).isSome = false
                · rw [if_pos hact] at he2; exact hst e he2
                · rw [if_neg hact] at he2; exact hst e he2
        · rw [if_neg hz] at h
          obtain rfl := Option.some_inj.mp h
          exact hst
    · rw [if_neg h2t] at h
      by_cases hz : eqIgnoreAsciiCase object "00" = true
      · rw [if_pos hz] at h
        obtain rfl := Option.some_inj.mp h
        exact hst
      · rw [if_neg hz] at h
        by_cases hmem : strUpper object ∈ (lookupAL st.ln_open_ids ch).getD []
        · rw [if_pos hmem] at h
          obtain rfl := Option.some_inj.mp h
          exact hst
        · rw [if_neg hmem] at h
          cases hfo : lookupAL bms.header.audio_files object with
          | none =>
            rw [hfo] at h
            simp only at h
            obtain rfl := Option.some_inj.mp h
            exact hst
          | some filename =>
            rw [hfo] at h
            simp only at h
            cases hkid : lookupAL f2id filename with
            | none =>
              rw [hkid] at h
              simp only at h
              obtain rfl := Option.some_inj.mp h
              exact hst
            | some kid =>
              rw [hkid] at h
              simp only at h
              obtain rfl := Option.some_inj.mp h
              intro e he
              rcases List.mem_cons.mp he with rfl | he2
              · exact ⟨dvd_mul_left channels _, filename, hkid⟩
              · exact hst e he2
  · rw [if_neg hln] at h
    cases hfo : lookupAL bms.header.audio_files object with
    | none =>
      rw [hfo] at h
      simp only at h
      obtain rfl := Option.some_inj.mp h
      exact hst
    | some filename =>
      rw [hfo] at h
      simp only at h
      cases hkid : lookupAL f2id filename with
      | none =>
        rw [hkid] at h
        simp only at h
        obtain rfl := Option.some_inj.mp h
        exact hst
      | some kid =>
        rw [hkid] at h
        simp only at h
        obtain rfl := Option.some_inj.mp h
        intro e he
        rcases List.mem_cons.mp he with rfl | he2
        · exact ⟨dvd_mul_left channels _, filename, hkid⟩
        · exact hst e he2

/-- The per-message token fold preserves the event property. -/
theorem processTokens_good (bms : Bms) (tmap : TempoMap) (f2id : List (String × ℕ))
    (sr channels msg_measure ch num_objects : ℕ) :
    ∀ (iobjs : List (ℕ × String)) (st st1 : ExtState),
      processTokens bms tmap f2id sr channels msg_measure ch num_objects st iobjs = some st1 →
      (∀ e ∈ st.events, goodEvent f2id channels e) →
      ∀ e ∈ st1.events, goodEvent f2id channels e := by
  intro iobjs
  induction iobjs with
  | nil =>
    intro st st1 h hst
    simp only [processTokens] at h
    obtain rfl := Option.some_inj.mp h
    exact hst
  | cons iobj rest ih =>
    intro st st1 h hst
    simp only [processTokens] at h
    cases hp : processToken bms tmap f2id sr channels msg_measure ch num_objects st
        iobj.1 iobj.2 with
    | none => rw [hp] at h; exact absurd h (by simp)
    | some st2 =>
      rw [hp] at h
      simp only at h
      exact ih st2 st1 h
        (processToken_good bms tmap f2id sr channels msg_measure ch num_objects st
          iobj.1 iobj.2 st2 hp hst)

/-- The message fold preserves the event property. -/
theorem processMessages_good (bms : Bms) (tmap : TempoMap) (f2id : List (String × ℕ))
    (sr channels : ℕ) :
    ∀ (msgs : List Message) (st st1 : ExtState),
      processMessages bms tmap f2id sr channels st msgs = some st1 →
      (∀ e ∈ st.events, goodEvent f2id channels e) →
      ∀ e ∈ st1.events, goodEvent f2id channels e := by
  intro msgs
  induction msgs with
  | nil =>
    intro st st1 h hst
    simp only [processMessages] at h
    obtain rfl := Option.some_inj.mp h
    exact hst
  | cons msg rest ih =>
    intro st st1 h hst
    simp only [processMessages] at h
    by_cases hall : allowedChannel msg.channel
    · rw [if_pos hall] at h
      by_cases hlen : msg.objects.length = 0
      · rw [if_pos hlen] at h
        exact ih st st1 h hst
      · rw [if_neg hlen] at h
        cases hp : processTokens bms tmap f2id sr channels msg.measure msg.channel
            msg.objects.length st msg.objects.enum with
        | none => rw [hp] at h; exact absurd h (by simp)
        | some st2 =>
          rw [hp] at h
          simp only at h
          exact ih st2 st1 h
            (processTokens_good bms tmap f2id sr channels msg.measure msg.channel
              msg.objects.length msg.objects.enum st st2 hp hst)
    · rw [if_neg hall] at h
      exact ih st st1 h hst

/-- C10: every `SoundEvent` returned by `extract_sound_events` has a start
that is a multiple of the `channels` argument (it is built as
`get_timestamp_samples(...) * channels`), and a key that is a value of the
`filename_to_id` map. -/
theorem c10_events_aligned (bms : Bms) (tmap : TempoMap)
    (filename_to_id : List (String × ℕ)) (sample_rate channels : ℕ)
    (evs : List SoundEvent)
    (h : extract_sound_events bms tmap filename_to_id sample_rate channels = some evs) :
    ∀ e ∈ evs, channels ∣ e.start ∧ ∃ f, lookupAL filename_to_id f = some e.key_id := by
  unfold extract_sound_events at h
  rw [Option.map_eq_some'] at h
  obtain ⟨st, hpm, hevs⟩ := h
  have hg := processMessages_good bms tmap filename_to_id sample_rate channels
    bms.messages ⟨[], [], []⟩ st hpm (by intro e he; cases he)
  intro e he
  rw [← hevs, List.mem_reverse] at he
  exact hg e he

/-- Witness chart for C10: two ordinary channel-1 notes. -/
def c10wbms : Bms :=
  ⟨⟨120, none, none, [("02", "b.wav")], [], []⟩, [⟨0, 1, ["02", "02"]⟩], []⟩

/-- Witness tempo map for C10 (the map `build_tempo_map` yields for the
witness chart). -/
def c10wtm : TempoMap := ⟨0, [⟨0, 0, 120, 0⟩], [], [1], [0]⟩

/-- Events extracted from the C10 witness chart. -/
def c10wevs : List SoundEvent := [⟨0, 0, none⟩, ⟨0, 88200, none⟩]

/-- C10 witness: the alignment theorem instantiated at a concrete chart on
which extraction succeeds. -/
theorem c10_aligned_witness :
    extract_sound_events c10wbms c10wtm [("b.wav", 0)] 44100 2 = some c10wevs
      ∧ (∀ e ∈ c10wevs, 2 ∣ e.start ∧ ∃ f, lookupAL [("b.wav", 0)] f = some e.key_id) :=
  ⟨by decide,
    c10_events_aligned c10wbms c10wtm [("b.wav", 0)] 44100 2 c10wevs (by decide)⟩

/-! Claim C8: the linear timestamp law at constant 120 BPM. -/

/-- The C8 counterexample chart: `#BPM 120`, a single channel-1 message at
measure 0 with two tokens, no multipliers, no stops, no tempo changes. -/
def c8bms : Bms :=
  ⟨⟨120, none, none, [("01", "a.wav")], [], []⟩, [⟨0, 1, ["01", "02"]⟩], []⟩

/-- C8 counterexample: the law as stated quantifies over every measure
`m ≥ base_measure`, but at `m = 2` (beyond `max_measure = 0`)
`get_timestamp` hits the unchecked `cum_mult[2]` access and panics
(`none` here) instead of returning `(m - base + p) * 2`. -/
theorem c8_counterexample :
    (build_tempo_map c8bms).map
      (fun tm => decide (TempoMap.get_timestamp tm 2 0
        = some ((((2 - tm.base_measure : ℕ) : ℚ) + 0) * 2))) = some false := by
  decide

/-- Sorting the empty list is trivial. -/
theorem insertionSort_nil {α : Type} (r : α → α → Prop) [DecidableRel r] :
    List.insertionSort r [] = [] := rfl

/-- Sorting a singleton is trivial. -/
theorem insertionSort_single {α : Type} (r : α → α → Prop) [DecidableRel r] (x : α) :
    List.insertionSort r [x] = [x] := rfl

/-- A message on a channel other than 3 and 8 contributes no tempo change. -/
theorem msgTempoChanges_eq_nil (bt : List (String × ℚ)) (msg : Message)
    (h3 : msg.channel ≠ 3) (h8 : msg.channel ≠ 8) :
    msgTempoChanges bt msg = [] := by
  unfold msgTempoChanges
  by_cases hlen : msg.objects.length = 0
  · rw [if_pos hlen]
  · rw [if_neg hlen, List.filterMap_eq_nil_iff]
    intro a _
    simp [h3, h8]

/-- A message on a channel other than 9 contributes no stop. -/
theorem msgStops_eq_nil (st : List (String × ℚ)) (msg : Message) (h9 : msg.channel ≠ 9) :
    msgStops st msg = [] := by
  unfold msgStops
  rw [if_neg h9]

/-- Integrating a lone seed tempo change with no stops emits exactly the
seed anchor at time zero. -/
theorem integrate_single (b : ℕ) (bpm : ℚ) (mm : List (ℕ × ℚ)) (mv cm : List ℚ) :
    integrate_timeline [⟨b, 0, bpm⟩] [] mm b mv cm = some [⟨b, 0, bpm, 0⟩] := by
  simp only [integrate_timeline, integrateLoop]
  rw [if_neg (by simp)]
  simp [integrateLoop]

/-- On a chart with no tempo-change and no stop messages,
`build_tempo_map` returns the single seed anchor. -/
theorem build_simple (bms : Bms)
    (hch : ∀ msg ∈ bms.messages, msg.channel ≠ 3 ∧ msg.channel ≠ 8 ∧ msg.channel ≠ 9) :
    build_tempo_map bms = some ⟨baseMeasureOf bms,
      [⟨baseMeasureOf bms, 0, bms.header.bpm, 0⟩], bms.measure_multipliers,
      multVecOf bms, cumMultOf (multVecOf bms)⟩ := by
  have htc : bms.messages.flatMap (msgTempoChanges bms.header.bpm_table) = [] := by
    rw [List.flatMap_eq_nil_iff]
    intro msg hm
    exact msgTempoChanges_eq_nil bms.header.bpm_table msg (hch msg hm).1 (hch msg hm).2.1
  have hstp : bms.messages.flatMap (msgStops bms.header.stop_table) = [] := by
    rw [List.flatMap_eq_nil_iff]
    intro msg hm
    exact msgStops_eq_nil bms.header.stop_table msg (hch msg hm).2.2
  simp only [build_tempo_map]
  rw [htc, hstp, insertionSort_single, insertionSort_nil, integrate_single]
  rfl

/-- With no multipliers recorded, every dense multiplier entry is 1. -/
theorem multVec_ones (bms : Bms) (hmm : bms.measure_multipliers = []) :
    multVecOf bms = List.replicate (maxMeasureOf bms - baseMeasureOf bms + 1) (1 : ℚ) := by
  unfold multVecOf
  rw [hmm]
  simp only [lookupAL_nil, Option.getD_none]
  rw [List.map_const', List.length_range]

/-- Entry `k` of the cumulative sums of `n` ones is `k`. -/
theorem cum_replicate_get? (n k : ℕ) (hk : k < n) :
    (cumMultOf (List.replicate n (1 : ℚ))).get? k = some (k : ℚ) := by
  unfold cumMultOf
  rw [cumAux_get?]
  · rw [List.take_replicate]
    have hmin : min k n = k := by omega
    rw [hmin]
    simp [List.sum_replicate]
  · rw [List.length_replicate]
    exact hk

/-- The binary search over a single anchor, spelled out by comparison
result. -/
theorem binarySearchLoop_singleton (cmp : TempoEvent → Ordering) (e : TempoEvent) :
    binarySearchLoop cmp [e] 2 0 1 =
      (match cmp e with
        | Ordering.lt => Sum.inr 1
        | Ordering.gt => Sum.inr 0
        | Ordering.eq => Sum.inl 0) := by
  cases hc : cmp e <;> simp [binarySearchLoop, hc]

/-- Entry lookup in a replicated list of ones. -/
theorem replicate_get?_lt {n k : ℕ} (hk : k < n) :
    (List.replicate n (1 : ℚ)).get? k = some 1 := by
  rw [List.get?_eq_getElem?]
  simp [List.getElem?_replicate, hk]

theorem get_timestamp_single_linear (b maxm : ℕ) (m : ℕ) (p : ℚ)
    (hm1 : b ≤ m) (hm2 : m ≤ maxm) (_hp0 : 0 ≤ p) (_hp1 : p < 1) :
    TempoMap.get_timestamp
      ⟨b, [⟨b, 0, 120, 0⟩], [], List.replicate (maxm - b + 1) 1,
        cumMultOf (List.replicate (maxm - b + 1) 1)⟩ m p
      = some ((((m - b : ℕ) : ℚ) + p) * 2) := by
  simp only [TempoMap.get_timestamp]
  rw [if_neg (show ¬ m < b by omega)]
  simp only [List.length_singleton]
  rw [binarySearchLoop_singleton]
  have hidx : (match (match eventCmp m p ⟨b, 0, 120, 0⟩ with
      | Ordering.lt => (Sum.inr 1 : Sum ℕ ℕ)
      | Ordering.gt => Sum.inr 0
      | Ordering.eq => Sum.inl 0) with
      | Sum.inl idx => idx
      | Sum.inr 0 => 0
      | Sum.inr idx => idx - 1) = 0 := by
    cases eventCmp m p ⟨b, 0, 120, 0⟩ <;> rfl
  rw [hidx]
  simp only [List.get?, Nat.sub_self]
  by_cases hbm : b = m
  · subst hbm
    by_cases hp : (0 : ℚ) = p
    · rw [if_pos ⟨rfl, hp⟩, ← hp]
      norm_num
    · rw [if_neg (by intro hc; exact hp hc.2), if_pos rfl]
      simp only [lookupAL_nil, Option.getD_none, Nat.sub_self]
      norm_num
  · have hlt : b < m := by omega
    rw [if_neg (by intro hc; exact hbm hc.1), if_neg hbm]
    rw [replicate_get?_lt (by omega : m - b < maxm - b + 1)]
    by_cases hspan : 0 + 1 < m - b
    · rw [if_pos hspan]
      rw [cum_replicate_get? (maxm - b + 1) (m - b) (by omega)]
      have hc1 : (cumAux (0 + 1) (List.replicate (maxm - b) (1 : ℚ))).get? 0
          = some (0 + 1 + 0) := by
        have := cumAux_get? (List.replicate (maxm - b) (1 : ℚ)) (0 + 1) 0
          (by rw [List.length_replicate]; omega)
        simpa using this
      rw [hc1]
      simp only [Option.map_some']
      norm_num
    · rw [if_neg hspan]
      have hone : m - b = 1 := by omega
      rw [hone]
      simp only [Option.map_some', Nat.cast_one]
      norm_num

/-- C8 amended: at base BPM 120, with no measure multipliers and no
tempo-change or stop messages, `get_timestamp(m, p) = (m - base_measure + p) * 2`
seconds for every measure `m` between `base_measure` and the chart's
`max_measure` and every position `p ∈ [0, 1)`.  (Beyond `max_measure + 1`
the code indexes `cum_mult` out of bounds, so the law cannot extend to all
measures.) -/
theorem c8_linear (bms : Bms)
    (hbpm : bms.header.bpm = 120)
    (hmm : bms.measure_multipliers = [])
    (hch : ∀ msg ∈ bms.messages, msg.channel ≠ 3 ∧ msg.channel ≠ 8 ∧ msg.channel ≠ 9)
    (tmap : TempoMap) (htm : build_tempo_map bms = some tmap)
    (m : ℕ) (p : ℚ) (hm1 : tmap.base_measure ≤ m) (hm2 : m ≤ maxMeasureOf bms)
    (hp0 : 0 ≤ p) (hp1 : p < 1) :
    TempoMap.get_timestamp tmap m p
      = some ((((m - tmap.base_measure : ℕ) : ℚ) + p) * 2) := by
  rw [build_simple bms hch] at htm
  obtain rfl := Option.some_inj.mp htm
  rw [hbpm, hmm, multVec_ones bms hmm]
  exact get_timestamp_single_linear (baseMeasureOf bms) (maxMeasureOf bms) m p hm1 hm2 hp0 hp1

/-- Witness chart for C8: BPM 120, notes at measures 0 and 3. -/
def c8wbms : Bms :=
  ⟨⟨120, none, none, [("01", "a.wav")], [], []⟩, [⟨0, 1, ["01"]⟩, ⟨3, 1, ["01"]⟩], []⟩

/-- The tempo map of the C8 witness chart. -/
def c8wtm : TempoMap :=
  ⟨0, [⟨0, 0, 120, 0⟩], [], [1, 1, 1, 1], [0, 1, 2, 3]⟩

/-- C8 witness: the amended law instantiated at measure 2, position 1/2 of
the witness chart, giving exactly 5 seconds. -/
theorem c8_linear_witness :
    build_tempo_map c8wbms = some c8wtm
      ∧ TempoMap.get_timestamp c8wtm 2 (1/2)
        = some ((((2 - c8wtm.base_measure : ℕ) : ℚ) + 1/2) * 2) :=
  ⟨by decide,
    c8_linear c8wbms (by decide) (by decide) (by decide) c8wtm (by decide) 2 (1/2)
      (by decide) (by decide) (by decide) (by decide)⟩

/-! Claim C3 (amended): development of the ordering invariant. -/

/-- Lexicographic non-strict order on musical positions. -/
def posLE (m1 : ℕ) (p1 : ℚ) (m2 : ℕ) (p2 : ℚ) : Prop :=
  m1 < m2 ∨ (m1 = m2 ∧ p1 ≤ p2)

/-- Lexicographic strict order on musical positions. -/
def posLT (m1 : ℕ) (p1 : ℚ) (m2 : ℕ) (p2 : ℚ) : Prop :=
  m1 < m2 ∨ (m1 = m2 ∧ p1 < p2)

/-- Transitivity of the non-strict position order. -/
theorem posLE_trans {m1 m2 m3 : ℕ} {p1 p2 p3 : ℚ}
    (h1 : posLE m1 p1 m2 p2) (h2 : posLE m2 p2 m3 p3) : posLE m1 p1 m3 p3 := by
  rcases h1 with h1 | ⟨h1, h1p⟩ <;> rcases h2 with h2 | ⟨h2, h2p⟩
  · exact Or.inl (h1.trans h2)
  · exact Or.inl (h2 ▸ h1)
  · exact Or.inl (h1 ▸ h2)
  · exact Or.inr ⟨h1.trans h2, h1p.trans h2p⟩

/-- A non-strict step followed by a strict step is strict. -/
theorem posLE_posLT_trans {m1 m2 m3 : ℕ} {p1 p2 p3 : ℚ}
    (h1 : posLE m1 p1 m2 p2) (h2 : posLT m2 p2 m3 p3) : posLT m1 p1 m3 p3 := by
  rcases h1 with h1 | ⟨h1, h1p⟩ <;> rcases h2 with h2 | ⟨h2, h2p⟩
  · exact Or.inl (h1.trans h2)
  · exact Or.inl (h2 ▸ h1)
  · exact Or.inl (h1 ▸ h2)
  · exact Or.inr ⟨h1.trans h2, h1p.trans_lt h2p⟩

/-- Strict implies non-strict. -/
theorem posLT.posLE {m1 m2 : ℕ} {p1 p2 : ℚ} (h : posLT m1 p1 m2 p2) : posLE m1 p1 m2 p2 := by
  rcases h with h | ⟨h, hp⟩
  · exact Or.inl h
  · exact Or.inr ⟨h, le_of_lt hp⟩

/-- Totality: if not strictly before, then at or after. -/
theorem posLE_of_not_posLT {m1 m2 : ℕ} {p1 p2 : ℚ} (h : ¬ posLT m1 p1 m2 p2) :
    posLE m2 p2 m1 p1 := by
  unfold posLT at h
  push_neg at h
  obtain ⟨h1, h2⟩ := h
  rcases Nat.lt_or_ge m2 m1 with hm | hm
  · exact Or.inl hm
  · have hm2 : m1 = m2 := by omega
    exact Or.inr ⟨hm2.symm, h2 hm2⟩

/-- Well-formedness of a raw tempo change as produced by
`build_tempo_map` on a chart with positive base BPM and table entries. -/
def rtcOK (base maxm : ℕ) (t : RawTempoChange) : Prop :=
  0 < t.bpm ∧ base ≤ t.measure ∧ t.measure ≤ maxm ∧ 0 ≤ t.position ∧ t.position < 1

/-- Well-formedness of a stop event. -/
def stopOK (base maxm : ℕ) (s : StopEvent) : Prop :=
  0 ≤ s.duration_192nds ∧ base ≤ s.measure ∧ s.measure ≤ maxm ∧ 0 ≤ s.position ∧ s.position < 1

/-- Well-formedness of the integration state. -/
def stateOK (base maxm : ℕ) (st : IntState) : Prop :=
  0 < st.bpm ∧ base ≤ st.measure ∧ st.measure ≤ maxm ∧ 0 ≤ st.position ∧ st.position < 1

/-- Monotonicity of the cumulative multipliers of a non-negative vector. -/
theorem cumMultOf_mono {mv : List ℚ} (hmv : ∀ x ∈ mv, 0 ≤ x) {i j : ℕ} (hij : i ≤ j)
    {ci cj : ℚ} (hi : (cumMultOf mv).get? i = some ci) (hj : (cumMultOf mv).get? j = some cj) :
    ci ≤ cj := by
  have hjlen : j < mv.length := by
    by_contra hc
    rw [cumMultOf] at hj
    have : (cumAux 0 mv).length = mv.length := cumAux_length mv 0
    rw [List.get?_eq_none.mpr (by omega)] at hj
    cases hj
  have hilen : i < mv.length := by omega
  rw [cumMultOf, cumAux_get? mv 0 i hilen] at hi
  rw [cumMultOf, cumAux_get? mv 0 j hjlen] at hj
  obtain rfl := Option.some_inj.mp hi
  obtain rfl := Option.some_inj.mp hj
  have := sum_take_mono hmv hij (l := mv)
  linarith

/-- The spanned time computed by `calculate_time_between` is non-negative
whenever the source position lies at or before the target, the BPM is
positive and all multipliers are positive. -/
theorem calculate_time_between_nonneg
    (fm : ℕ) (fp : ℚ) (tmeas : ℕ) (tp : ℚ) (bpm : ℚ)
    (mm : List (ℕ × ℚ)) (base : ℕ) (mv cm : List ℚ) (d : ℚ)
    (hbpm : 0 < bpm)
    (hmm : ∀ q ∈ mm, 0 < q.2)
    (hmv : ∀ x ∈ mv, 0 < x)
    (hcm : cm = cumMultOf mv)
    (hfp : fp ≤ 1) (htp : 0 ≤ tp)
    (hle : posLE fm fp tmeas tp)
    (h : calculate_time_between fm fp tmeas tp bpm mm base mv cm = some d) :
    0 ≤ d := by
  have hbms : (0 : ℚ) < 4 * (60 / bpm) := by positivity
  unfold calculate_time_between at h
  by_cases heq : fm = tmeas
  · rw [if_pos heq] at h
    simp only at h
    obtain rfl := Option.some_inj.mp h.symm
    have hfptp : fp ≤ tp := by
      rcases hle with hlt | ⟨_, hp⟩
      · omega
      · exact hp
    have hmult : (0 : ℚ) < (lookupAL mm fm).getD 1 := by
      cases hlk : lookupAL mm fm with
      | none => norm_num
      | some v =>
        simp only [Option.getD_some]
        exact hmm (fm, v) (lookupAL_mem hlk)
    have hdiff : (0 : ℚ) ≤ tp - fp := by linarith
    have := mul_pos hbms hmult
    exact mul_nonneg hdiff (by linarith)
  · rw [if_neg heq] at h
    simp only at h
    have hmf : (0 : ℚ) < ((mv.get? (fm - base)).getD 1) := by
      cases hlk : mv.get? (fm - base) with
      | none => norm_num
      | some v =>
        simp only [Option.getD_some]
        exact hmv v (List.get?_mem hlk)
    have hmt : (0 : ℚ) < ((mv.get? (tmeas - base)).getD 1) := by
      cases hlk : mv.get? (tmeas - base) with
      | none => norm_num
      | some v =>
        simp only [Option.getD_some]
        exact hmv v (List.get?_mem hlk)
    by_cases hidx : fm - base + 1 < tmeas - base
    · rw [if_pos hidx] at h
      cases hcto : cm.get? (tmeas - base) with
      | none => rw [hcto] at h; cases hc2 : cm.get? (fm - base + 1) <;> rw [hc2] at h <;> cases h
      | some cto =>
        cases hcfr : cm.get? (fm - base + 1) with
        | none => rw [hcto, hcfr] at h; cases h
        | some cfr =>
          rw [hcto, hcfr] at h
          simp only [Option.map_some'] at h
          obtain rfl := Option.some_inj.mp h.symm
          have hspan : cfr ≤ cto := by
            subst hcm
            exact cumMultOf_mono (fun x hx => le_of_lt (hmv x hx)) (by omega)
              hcfr hcto
          have h1 : (0 : ℚ) ≤ (1 - fp) * ((mv.get? (fm - base)).getD 1) :=
            mul_nonneg (by linarith) hmf.le
          have h2 : (0 : ℚ) ≤ tp * ((mv.get? (tmeas - base)).getD 1) :=
            mul_nonneg htp hmt.le
          exact mul_nonneg (by linarith) hbms.le
    · rw [if_neg hidx] at h
      simp only [Option.map_some'] at h
      obtain rfl := Option.some_inj.mp h.symm
      have h1 : (0 : ℚ) ≤ (1 - fp) * ((mv.get? (fm - base)).getD 1) :=
        mul_nonneg (by linarith) hmf.le
      have h2 : (0 : ℚ) ≤ tp * ((mv.get? (tmeas - base)).getD 1) :=
        mul_nonneg htp hmt.le
      exact mul_nonneg (by linarith) hbms.le

/-- Non-strict order in one direction excludes strict order in the other. -/
theorem not_posLT_of_posLE {m1 m2 : ℕ} {p1 p2 : ℚ} (h : posLE m1 p1 m2 p2) :
    ¬ posLT m2 p2 m1 p1 := by
  unfold posLE at h
  unfold posLT
  rintro (h2 | ⟨h2, hp2⟩) <;> rcases h with h1 | ⟨h1, hp1⟩
  all_goals first | omega | linarith

/-- The last accumulated tempo event (if any) sits at or before the
current integration state, both in musical position and in time. -/
def accLink (acc : List TempoEvent) (st : IntState) : Prop :=
  ∀ e, acc.getLast? = some e →
    posLE e.measure e.position st.measure st.position ∧ e.timestamp_sec ≤ st.time

/-- Full invariant of the stop-consuming loop: starting from a valid state
whose pending stops are sorted and at or after it, a successful run ends in
a valid state at or after the start, with the untouched stops still sorted,
at or after the final state and not strictly before the tempo change, the
accumulated events still chained and linked to the final state, and the
final state either unmoved or strictly before the tempo change. -/
theorem consumeStops_spec (mm : List (ℕ × ℚ)) (base maxm : ℕ) (mv cm : List ℚ)
    (tc : RawTempoChange)
    (hmmp : ∀ q ∈ mm, 0 < q.2) (hmvp : ∀ x ∈ mv, 0 < x) (hcm : cm = cumMultOf mv) :
    ∀ (stops : List StopEvent) (st : IntState) (acc : List TempoEvent)
      (st1 : IntState) (stops1 : List StopEvent) (acc1 : List TempoEvent),
      stateOK base maxm st →
      (∀ s ∈ stops, stopOK base maxm s) →
      List.Pairwise stopLE stops →
      (∀ s ∈ stops, posLE st.measure st.position s.measure s.position) →
      List.Chain' tempoEventOrd acc →
      accLink acc st →
      consumeStops mm base mv cm tc st stops acc = some (st1, stops1, acc1) →
      stateOK base maxm st1 ∧ st1.bpm = st.bpm ∧ st.time ≤ st1.time ∧
        posLE st.measure st.position st1.measure st1.position ∧
        (∀ s ∈ stops1, stopOK base maxm s) ∧
        List.Pairwise stopLE stops1 ∧
        (∀ s ∈ stops1, posLE st1.measure st1.position s.measure s.position) ∧
        (∀ s ∈ stops1, ¬ posLT s.measure s.position tc.measure tc.position) ∧
        List.Chain' tempoEventOrd acc1 ∧ accLink acc1 st1 ∧
        ((st1.measure = st.measure ∧ st1.position = st.position) ∨
          posLT st1.measure st1.position tc.measure tc.position) := by
  intro stops
  induction stops with
  | nil =>
    intro st acc st1 stops1 acc1 hstOK _ _ _ hchain hlink h
    simp only [consumeStops, Option.some_inj, Prod.mk.injEq] at h
    obtain ⟨rfl, rfl, rfl⟩ := h
    refine ⟨hstOK, rfl, le_refl _, Or.inr ⟨rfl, le_refl _⟩, ?_, ?_, ?_, ?_,
      hchain, hlink, Or.inl ⟨rfl, rfl⟩⟩
    · simp
    · simp
    · simp
    · simp
  | cons stop rest ih =>
    intro st acc st1 stops1 acc1 hstOK hsOK hspw hge hchain hlink h
    simp only [consumeStops] at h
    by_cases hguard : stop.measure < tc.measure ∨
        (stop.measure = tc.measure ∧ stop.position < tc.position)
    · rw [if_pos hguard] at h
      cases hcalc : calculate_time_between st.measure st.position stop.measure stop.position
          st.bpm mm base mv cm with
      | none => rw [hcalc] at h; cases h
      | some tts =>
        rw [hcalc] at h
        simp only at h
        obtain ⟨hdur, hsb, hsm, hsp0, hsp1⟩ := hsOK stop (List.mem_cons_self stop rest)
        obtain ⟨hbpm, hstb, hstm, hstp0, hstp1⟩ := hstOK
        have hle0 : posLE st.measure st.position stop.measure stop.position :=
          hge stop (List.mem_cons_self stop rest)
        have htts : 0 ≤ tts :=
          calculate_time_between_nonneg st.measure st.position stop.measure stop.position
            st.bpm mm base mv cm tts hbpm hmmp hmvp hcm (le_of_lt hstp1) hsp0 hle0 hcalc
        have hdursec : (0 : ℚ) ≤ stop.duration_192nds / 48 * (60 / st.bpm) :=
          mul_nonneg (div_nonneg hdur (by norm_num)) (le_of_lt (div_pos (by norm_num) hbpm))
        obtain ⟨hpwhd, hpwtl⟩ := List.pairwise_cons.mp hspw
        have HOK : stateOK base maxm
            ⟨st.time + tts + stop.duration_192nds / 48 * (60 / st.bpm),
              stop.measure, stop.position, st.bpm⟩ :=
          ⟨hbpm, hsb, hsm, hsp0, hsp1⟩
        have HsOK : ∀ s ∈ rest, stopOK base maxm s :=
          fun s hs => hsOK s (List.mem_cons_of_mem _ hs)
        have Hge : ∀ s ∈ rest, posLE stop.measure stop.position s.measure s.position := by
          intro s hs
          have hsl := hpwhd s hs
          unfold stopLE at hsl
          unfold posLE
          exact hsl
        have Hchain : List.Chain' tempoEventOrd (acc ++
            [⟨stop.measure, stop.position, st.bpm,
              st.time + tts + stop.duration_192nds / 48 * (60 / st.bpm)⟩]) := by
          rw [List.chain'_append]
          refine ⟨hchain, List.chain'_singleton _, ?_⟩
          intro x hx y hy
          simp only [List.head?_cons, Option.mem_def, Option.some_inj] at hy
          subst hy
          obtain ⟨hxle, hxt⟩ := hlink x (Option.mem_def.mp hx)
          constructor
          · have := posLE_trans hxle hle0
            unfold posLE at this
            exact this
          · show x.timestamp_sec ≤ st.time + tts + stop.duration_192nds / 48 * (60 / st.bpm)
            linarith
        have Hlink : accLink (acc ++
            [⟨stop.measure, stop.position, st.bpm,
              st.time + tts + stop.duration_192nds / 48 * (60 / st.bpm)⟩])
            ⟨st.time + tts + stop.duration_192nds / 48 * (60 / st.bpm),
              stop.measure, stop.position, st.bpm⟩ := by
          intro e he
          rw [List.getLast?_concat] at he
          obtain rfl := Option.some_inj.mp he
          exact ⟨Or.inr ⟨rfl, le_refl _⟩, le_refl _⟩
        obtain ⟨hOK1, hbpm1, htime1, hposle1, hsOK1, hpwf1, hge1, hnlt1, hchainf1,
            hlinkf1, hdisj1⟩ := ih _ _ st1 stops1 acc1 HOK HsOK hpwtl Hge Hchain Hlink h
        refine ⟨hOK1, hbpm1, ?_, posLE_trans hle0 hposle1, hsOK1, hpwf1, hge1, hnlt1,
          hchainf1, hlinkf1, Or.inr ?_⟩
        · have hTle : st.time ≤ st.time + tts + stop.duration_192nds / 48 * (60 / st.bpm) := by
            linarith
          exact hTle.trans htime1
        · rcases hdisj1 with ⟨hm, hp⟩ | hlt
          · unfold posLT
            rw [hm, hp]
            exact hguard
          · exact hlt
    · rw [if_neg hguard] at h
      simp only [Option.some_inj, Prod.mk.injEq] at h
      obtain ⟨rfl, rfl, rfl⟩ := h
      have hnotlt : ¬ posLT stop.measure stop.position tc.measure tc.position := by
        unfold posLT
        exact hguard
      have htcle : posLE tc.measure tc.position stop.measure stop.position :=
        posLE_of_not_posLT hnotlt
      refine ⟨hstOK, rfl, le_refl _, Or.inr ⟨rfl, le_refl _⟩, hsOK, hspw, hge, ?_,
        hchain, hlink, Or.inl ⟨rfl, rfl⟩⟩
      intro s hs
      rcases List.mem_cons.mp hs with rfl | hs2
      · exact hnotlt
      · obtain ⟨hpwhd, _⟩ := List.pairwise_cons.mp hspw
        have h1 : posLE stop.measure stop.position s.measure s.position := by
          have hsl := hpwhd s hs2
          unfold stopLE at hsl
          unfold posLE
          exact hsl
        exact not_posLT_of_posLE (posLE_trans htcle h1)

/-- Invariant of the outer integration loop: from a valid state with
sorted, well-formed tempo changes and stops all at or after it, and a
chained accumulator linked to the state, any successful run returns a
chained event list. -/
theorem integrateLoop_spec (mm : List (ℕ × ℚ)) (base maxm : ℕ) (mv cm : List ℚ)
    (hmmp : ∀ q ∈ mm, 0 < q.2) (hmvp : ∀ x ∈ mv, 0 < x) (hcm : cm = cumMultOf mv) :
    ∀ (tcs : List RawTempoChange) (st : IntState) (stops : List StopEvent)
      (acc : List TempoEvent) (out : List TempoEvent),
      stateOK base maxm st →
      (∀ t ∈ tcs, rtcOK base maxm t) →
      List.Pairwise rtcLE tcs →
      (∀ t ∈ tcs, posLE st.measure st.position t.measure t.position) →
      (∀ s ∈ stops, stopOK base maxm s) →
      List.Pairwise stopLE stops →
      (∀ s ∈ stops, posLE st.measure st.position s.measure s.position) →
      List.Chain' tempoEventOrd acc →
      accLink acc st →
      integrateLoop mm base mv cm tcs st stops acc = some out →
      List.Chain' tempoEventOrd out := by
  intro tcs
  induction tcs with
  | nil =>
    intro st stops acc out _ _ _ _ _ _ _ hchain _ h
    simp only [integrateLoop, Option.some_inj] at h
    subst h
    exact hchain
  | cons tc rest ih =>
    intro st stops acc out hstOK htOK htpw htle hsOK hspw hsge hchain hlink h
    simp only [integrateLoop] at h
    obtain ⟨htcb, htcbase, htcmax, htcp0, htcp1⟩ := htOK tc (List.mem_cons_self tc rest)
    obtain ⟨htpwhd, htpwtl⟩ := List.pairwise_cons.mp htpw
    have htle0 : posLE st.measure st.position tc.measure tc.position :=
      htle tc (List.mem_cons_self tc rest)
    have HtOK : ∀ t ∈ rest, rtcOK base maxm t :=
      fun t ht => htOK t (List.mem_cons_of_mem _ ht)
    have Htle : ∀ t ∈ rest, posLE tc.measure tc.position t.measure t.position := by
      intro t ht
      have hr := htpwhd t ht
      unfold rtcLE at hr
      unfold posLE
      exact hr
    by_cases hguard : st.measure < tc.measure ∨
        (tc.measure = st.measure ∧ st.position < tc.position)
    · rw [if_pos hguard] at h
      cases hcs : consumeStops mm base mv cm tc st stops acc with
      | none => rw [hcs] at h; cases h
      | some p =>
        obtain ⟨st1, stops1, acc1⟩ := p
        rw [hcs] at h
        simp only at h
        obtain ⟨hOK1, hbpm1, htime1, hposle1, hsOK1, hspw1, hge1, hnlt1, hchain1,
            hlink1, hdisj1⟩ :=
          consumeStops_spec mm base maxm mv cm tc hmmp hmvp hcm stops st acc st1 stops1 acc1
            hstOK hsOK hspw hsge hchain hlink hcs
        obtain ⟨hbpm1p, hst1b, hst1m, hst1p0, hst1p1⟩ := hOK1
        have hle1 : posLE st1.measure st1.position tc.measure tc.position := by
          rcases hdisj1 with ⟨hm, hp⟩ | hlt
          · rw [posLE, hm, hp]
            rw [posLE] at htle0
            exact htle0
          · exact hlt.posLE
        cases hcalc : calculate_time_between st1.measure st1.position tc.measure tc.position
            st1.bpm mm base mv cm with
        | none => rw [hcalc] at h; cases h
        | some delta =>
          rw [hcalc] at h
          simp only at h
          have hdelta : 0 ≤ delta :=
            calculate_time_between_nonneg st1.measure st1.position tc.measure tc.position
              st1.bpm mm base mv cm delta hbpm1p hmmp hmvp hcm (le_of_lt hst1p1) htcp0
              hle1 hcalc
          have HOK2 : stateOK base maxm ⟨st1.time + delta, tc.measure, tc.position, tc.bpm⟩ :=
            ⟨htcb, htcbase, htcmax, htcp0, htcp1⟩
          have Hsge2 : ∀ s ∈ stops1, posLE tc.measure tc.position s.measure s.position :=
            fun s hs => posLE_of_not_posLT (hnlt1 s hs)
          have Hchain2 : List.Chain' tempoEventOrd (acc1 ++
              [⟨tc.measure, tc.position, tc.bpm, st1.time + delta⟩]) := by
            rw [List.chain'_append]
            refine ⟨hchain1, List.chain'_singleton _, ?_⟩
            intro x hx y hy
            simp only [List.head?_cons, Option.mem_def, Option.some_inj] at hy
            subst hy
            obtain ⟨hxle, hxt⟩ := hlink1 x (Option.mem_def.mp hx)
            constructor
            · have := posLE_trans hxle hle1
              unfold posLE at this
              exact this
            · show x.timestamp_sec ≤ st1.time + delta
              linarith
          have Hlink2 : accLink (acc1 ++
              [⟨tc.measure, tc.position, tc.bpm, st1.time + delta⟩])
              ⟨st1.time + delta, tc.measure, tc.position, tc.bpm⟩ := by
            intro e he
            rw [List.getLast?_concat] at he
            obtain rfl := Option.some_inj.mp he
            exact ⟨Or.inr ⟨rfl, le_refl _⟩, le_refl _⟩
          exact ih _ _ _ out HOK2 HtOK htpwtl Htle hsOK1 hspw1 Hsge2 Hchain2 Hlink2 h
    · rw [if_neg hguard] at h
      have hm : tc.measure = st.measure ∧ tc.position = st.position := by
        rw [posLE] at htle0
        push_neg at hguard
        obtain ⟨hg1, hg2⟩ := hguard
        rcases htle0 with hlt | ⟨heq, hle⟩
        · omega
        · exact ⟨heq.symm, le_antisymm (hg2 heq.symm) hle⟩
      have HOK2 : stateOK base maxm ⟨st.time, tc.measure, tc.position, tc.bpm⟩ :=
        ⟨htcb, htcbase, htcmax, htcp0, htcp1⟩
      have Hsge2 : ∀ s ∈ stops, posLE tc.measure tc.position s.measure s.position := by
        intro s hs
        rw [posLE, hm.1, hm.2]
        have := hsge s hs
        rw [posLE] at this
        exact this
      have Hchain2 : List.Chain' tempoEventOrd (acc ++
          [⟨tc.measure, tc.position, tc.bpm, st.time⟩]) := by
        rw [List.chain'_append]
        refine ⟨hchain, List.chain'_singleton _, ?_⟩
        intro x hx y hy
        simp only [List.head?_cons, Option.mem_def, Option.some_inj] at hy
        subst hy
        obtain ⟨hxle, hxt⟩ := hlink x (Option.mem_def.mp hx)
        constructor
        · have := posLE_trans hxle htle0
          unfold posLE at this
          exact this
        · exact hxt
      have Hlink2 : accLink (acc ++ [⟨tc.measure, tc.position, tc.bpm, st.time⟩])
          ⟨st.time, tc.measure, tc.position, tc.bpm⟩ := by
        intro e he
        rw [List.getLast?_concat] at he
        obtain rfl := Option.some_inj.mp he
        exact ⟨Or.inr ⟨rfl, le_refl _⟩, le_refl _⟩
      exact ih _ _ _ out HOK2 HtOK htpwtl Htle hsOK hspw Hsge2 Hchain2 Hlink2 h

/-- Every message measure is at least `base_measure`. -/
theorem base_le_measure {bms : Bms} {msg : Message} (h : msg ∈ bms.messages) :
    baseMeasureOf bms ≤ msg.measure := by
  unfold baseMeasureOf
  cases hmin : (bms.messages.map Message.measure).min? with
  | none =>
    have := List.min?_eq_none_iff.mp hmin
    rw [List.map_eq_nil_iff] at this
    rw [this] at h
    simp at h
  | some a =>
    simp only [Option.getD_some]
    exact (List.min?_eq_some_iff'.mp hmin).2 msg.measure (List.mem_map_of_mem _ h)

/-- Every message measure is at most `max_measure`. -/
theorem measure_le_max {bms : Bms} {msg : Message} (h : msg ∈ bms.messages) :
    msg.measure ≤ maxMeasureOf bms := by
  unfold maxMeasureOf
  cases hmax : (bms.messages.map Message.measure).max? with
  | none =>
    have := List.max?_eq_none_iff.mp hmax
    rw [List.map_eq_nil_iff] at this
    rw [this] at h
    simp at h
  | some a =>
    simp only [Option.getD_some]
    exact le_max_of_le_left ((List.max?_eq_some_iff'.mp hmax).2 msg.measure
      (List.mem_map_of_mem _ h))

/-- `base_measure` never exceeds `max_measure`. -/
theorem base_le_max (bms : Bms) : baseMeasureOf bms ≤ maxMeasureOf bms := by
  unfold baseMeasureOf
  cases hmin : (bms.messages.map Message.measure).min? with
  | none => simp
  | some a =>
    simp only [Option.getD_some]
    obtain ⟨hamem, _⟩ := List.min?_eq_some_iff'.mp hmin
    unfold maxMeasureOf
    cases hmax : (bms.messages.map Message.measure).max? with
    | none =>
      have := List.max?_eq_none_iff.mp hmax
      rw [this] at hamem
      simp at hamem
    | some b =>
      have hab : a ≤ b := (List.max?_eq_some_iff'.mp hmax).2 a hamem
      simp only [Option.getD_some]
      unfold baseMeasureOf
      rw [hmin]
      simp only [Option.getD_some]
      exact le_max_of_le_left hab

/-- All entries of the dense multiplier vector are positive when the
measure-multiplier table is. -/
theorem multVecOf_pos {bms : Bms} (hmm : ∀ e ∈ bms.measure_multipliers, 0 < e.2) :
    ∀ x ∈ multVecOf bms, 0 < x := by
  intro x hx
  unfold multVecOf at hx
  rw [List.mem_map] at hx
  obtain ⟨k, _, hk⟩ := hx
  subst hk
  cases hlk : lookupAL bms.measure_multipliers (baseMeasureOf bms + k) with
  | none => simp [hlk]
  | some v =>
    simp only [Option.getD_some]
    exact hmm (baseMeasureOf bms + k, v) (lookupAL_mem hlk)

/-- Shape of a raw tempo change produced from a message: it carries the
message's measure, a positive BPM (given a positive BPM table) and a
position in `[0, 1)`. -/
theorem msgTempoChanges_mem {bt : List (String × ℚ)} {msg : Message} {t : RawTempoChange}
    (hbt : ∀ e ∈ bt, 0 < e.2) (ht : t ∈ msgTempoChanges bt msg) :
    t.measure = msg.measure ∧ 0 < t.bpm ∧ 0 ≤ t.position ∧ t.position < 1 := by
  unfold msgTempoChanges at ht
  by_cases hlen : msg.objects.length = 0
  · rw [if_pos hlen] at ht
    simp at ht
  · rw [if_neg hlen] at ht
    rw [List.mem_filterMap] at ht
    obtain ⟨⟨i, obj⟩, hmem, hf⟩ := ht
    have hilen : i < msg.objects.length := by
      have := List.mem_enum_iff_getElem?.mp hmem
      exact (List.getElem?_eq_some.mp this).1
    have hpos := tokenPos_mem (i := i) (n := msg.objects.length) hilen
    simp only at hf
    by_cases hch3 : msg.channel = 3
    · rw [if_pos hch3] at hf
      by_cases h00 : eqIgnoreAsciiCase obj "00" = true
      · rw [if_pos h00] at hf; cases hf
      · rw [if_neg h00] at hf
        cases hr : u8FromStrRadix16? obj with
        | none => rw [hr] at hf; cases hf
        | some bpm_int =>
          rw [hr] at hf
          simp only at hf
          by_cases hb : 0 < bpm_int
          · rw [if_pos hb] at hf
            obtain rfl := Option.some_inj.mp hf
            refine ⟨rfl, ?_, hpos.1, hpos.2⟩
            show (0 : ℚ) < (bpm_int : ℚ)
            exact_mod_cast hb
          · rw [if_neg hb] at hf; cases hf
    · rw [if_neg hch3] at hf
      by_cases hch8 : msg.channel = 8
      · rw [if_pos hch8] at hf
        by_cases h00 : eqIgnoreAsciiCase obj "00" = true
        · rw [if_pos h00] at hf; cases hf
        · rw [if_neg h00] at hf
          cases hr : lookupAL bt obj with
          | none => rw [hr] at hf; cases hf
          | some bpm =>
            rw [hr] at hf
            simp only at hf
            obtain rfl := Option.some_inj.mp hf
            exact ⟨rfl, hbt (obj, bpm) (lookupAL_mem hr), hpos.1, hpos.2⟩
      · rw [if_neg hch8] at hf; cases hf

/-- Shape of a stop event produced from a message: it carries the
message's measure, a non-negative duration (given a non-negative stop
table) and a position in `[0, 1)`. -/
theorem msgStops_mem {stt : List (String × ℚ)} {msg : Message} {s : StopEvent}
    (hstt : ∀ e ∈ stt, 0 ≤ e.2) (hs : s ∈ msgStops stt msg) :
    s.measure = msg.measure ∧ 0 ≤ s.duration_192nds ∧ 0 ≤ s.position ∧ s.position < 1 := by
  unfold msgStops at hs
  by_cases hch9 : msg.channel = 9
  · rw [if_pos hch9] at hs
    by_cases hlen : msg.objects.length = 0
    · rw [if_pos hlen] at hs
      simp at hs
    · rw [if_neg hlen] at hs
      rw [List.mem_filterMap] at hs
      obtain ⟨⟨i, obj⟩, hmem, hf⟩ := hs
      have hilen : i < msg.objects.length := by
        have := List.mem_enum_iff_getElem?.mp hmem
        exact (List.getElem?_eq_some.mp this).1
      have hpos := tokenPos_mem (i := i) (n := msg.objects.length) hilen
      simp only at hf
      by_cases h00 : eqIgnoreAsciiCase obj "00" = true
      · rw [if_pos h00] at hf; cases hf
      · rw [if_neg h00] at hf
        cases hr : lookupAL stt obj with
        | none => rw [hr] at hf; cases hf
        | some v =>
          rw [hr] at hf
          simp only at hf
          obtain rfl := Option.some_inj.mp hf
          exact ⟨rfl, hstt (obj, v) (lookupAL_mem hr), hpos.1, hpos.2⟩
  · rw [if_neg hch9] at hs
    simp at hs

/-- Claim C3 (amended): for every parsed chart whose header BPM is
positive, whose BPM and STOP tables are positive resp. non-negative and
whose measure multipliers are positive (the parser guarantees all but the
first), the events vector of the `TempoMap` returned by `build_tempo_map`
is ordered: adjacent events are lexicographically non-decreasing in
`(measure, position)` and non-decreasing in `timestamp_sec`. -/
theorem c3_events_ordered (bms : Bms) (tm : TempoMap)
    (hbpm : 0 < bms.header.bpm)
    (hbt : ∀ e ∈ bms.header.bpm_table, 0 < e.2)
    (hstt : ∀ e ∈ bms.header.stop_table, 0 ≤ e.2)
    (hmm : ∀ e ∈ bms.measure_multipliers, 0 < e.2)
    (h : build_tempo_map bms = some tm) :
    List.Chain' tempoEventOrd tm.events := by
  simp only [build_tempo_map] at h
  have htcsOK : ∀ t ∈ ((⟨baseMeasureOf bms, 0, bms.header.bpm⟩ : RawTempoChange) ::
      bms.messages.flatMap (msgTempoChanges bms.header.bpm_table)),
      rtcOK (baseMeasureOf bms) (maxMeasureOf bms) t := by
    intro t ht
    rcases List.mem_cons.mp ht with rfl | hmem
    · exact ⟨hbpm, le_refl _, base_le_max bms, le_refl _, by norm_num⟩
    · rw [List.mem_flatMap] at hmem
      obtain ⟨msg, hmsg, htm⟩ := hmem
      obtain ⟨hms, hb, hp0, hp1⟩ := msgTempoChanges_mem hbt htm
      exact ⟨hb, by rw [hms]; exact base_le_measure hmsg,
        by rw [hms]; exact measure_le_max hmsg, hp0, hp1⟩
  have hsOK : ∀ s ∈ bms.messages.flatMap (msgStops bms.header.stop_table),
      stopOK (baseMeasureOf bms) (maxMeasureOf bms) s := by
    intro s hs
    rw [List.mem_flatMap] at hs
    obtain ⟨msg, hmsg, hsm⟩ := hs
    obtain ⟨hms, hd, hp0, hp1⟩ := msgStops_mem hstt hsm
    exact ⟨hd, by rw [hms]; exact base_le_measure hmsg,
      by rw [hms]; exact measure_le_max hmsg, hp0, hp1⟩
  have htcsOKs : ∀ t ∈ List.insertionSort rtcLE
      ((⟨baseMeasureOf bms, 0, bms.header.bpm⟩ : RawTempoChange) ::
        bms.messages.flatMap (msgTempoChanges bms.header.bpm_table)),
      rtcOK (baseMeasureOf bms) (maxMeasureOf bms) t :=
    fun t ht => htcsOK t ((List.perm_insertionSort rtcLE _).mem_iff.mp ht)
  have hsOKs : ∀ s ∈ List.insertionSort stopLE
      (bms.messages.flatMap (msgStops bms.header.stop_table)),
      stopOK (baseMeasureOf bms) (maxMeasureOf bms) s :=
    fun s hs => hsOK s ((List.perm_insertionSort stopLE _).mem_iff.mp hs)
  have htsorted : List.Pairwise rtcLE (List.insertionSort rtcLE
      ((⟨baseMeasureOf bms, 0, bms.header.bpm⟩ : RawTempoChange) ::
        bms.messages.flatMap (msgTempoChanges bms.header.bpm_table))) :=
    List.sorted_insertionSort rtcLE _
  have hssorted : List.Pairwise stopLE (List.insertionSort stopLE
      (bms.messages.flatMap (msgStops bms.header.stop_table))) :=
    List.sorted_insertionSort stopLE _
  cases hsrt : List.insertionSort rtcLE
      ((⟨baseMeasureOf bms, 0, bms.header.bpm⟩ : RawTempoChange) ::
        bms.messages.flatMap (msgTempoChanges bms.header.bpm_table)) with
  | nil =>
    rw [hsrt] at h
    simp only [integrate_timeline, Option.map_some', Option.some_inj] at h
    subst h
    exact List.chain'_nil
  | cons t0 rest =>
    rw [hsrt] at h htcsOKs htsorted
    simp only [integrate_timeline] at h
    cases hloop : integrateLoop bms.measure_multipliers (baseMeasureOf bms)
        (multVecOf bms) (cumMultOf (multVecOf bms)) (t0 :: rest)
        ⟨0, baseMeasureOf bms, 0, t0.bpm⟩
        (List.insertionSort stopLE (bms.messages.flatMap (msgStops bms.header.stop_table)))
        [] with
    | none => rw [hloop] at h; cases h
    | some evs =>
      rw [hloop] at h
      simp only [Option.map_some', Option.some_inj] at h
      subst h
      show List.Chain' tempoEventOrd evs
      have ht0bpm : 0 < t0.bpm := (htcsOKs t0 (List.mem_cons_self t0 rest)).1
      have hstate : stateOK (baseMeasureOf bms) (maxMeasureOf bms)
          ⟨0, baseMeasureOf bms, 0, t0.bpm⟩ :=
        ⟨ht0bpm, le_refl _, base_le_max bms, le_refl _, by norm_num⟩
      have hstle : ∀ t ∈ t0 :: rest,
          posLE (baseMeasureOf bms) 0 t.measure t.position := by
        intro t ht
        obtain ⟨_, hb, _, hp0, _⟩ := htcsOKs t ht
        rcases eq_or_lt_of_le hb with heq | hlt
        · exact Or.inr ⟨heq, hp0⟩
        · exact Or.inl hlt
      have hsge : ∀ s ∈ List.insertionSort stopLE
          (bms.messages.flatMap (msgStops bms.header.stop_table)),
          posLE (baseMeasureOf bms) 0 s.measure s.position := by
        intro s hs
        obtain ⟨_, hb, _, hp0, _⟩ := hsOKs s hs
        rcases eq_or_lt_of_le hb with heq | hlt
        · exact Or.inr ⟨heq, hp0⟩
        · exact Or.inl hlt
      have hlinknil : accLink [] ⟨0, baseMeasureOf bms, 0, t0.bpm⟩ := by
        intro e he
        simp at he
      exact integrateLoop_spec bms.measure_multipliers (baseMeasureOf bms)
        (maxMeasureOf bms) (multVecOf bms) (cumMultOf (multVecOf bms))
        hmm (multVecOf_pos hmm) rfl (t0 :: rest)
        ⟨0, baseMeasureOf bms, 0, t0.bpm⟩
        (List.insertionSort stopLE (bms.messages.flatMap (msgStops bms.header.stop_table)))
        [] evs hstate htcsOKs htsorted hstle hsOKs hssorted hsge
        List.chain'_nil hlinknil hloop

/-- Witness chart for the C3 amended theorem: header `#BPM 120` and one
channel-3 message at measure 0 with tokens `00 3C` (a BPM change to 60 at
position 1/2). -/
def c3wbms : Bms :=
  ⟨⟨120, none, none, [], [], []⟩, [⟨0, 3, ["00", "3C"]⟩], []⟩

/-- The tempo map `build_tempo_map` produces for `c3wbms`. -/
def c3wtm : TempoMap :=
  ⟨0, [⟨0, 0, 120, 0⟩, ⟨0, 1/2, 60, 1⟩], [], [1], [0]⟩

/-- The C3 amended theorem applied to the concrete chart `c3wbms`. -/
theorem c3_ordered_witness :
    build_tempo_map c3wbms = some c3wtm ∧ List.Chain' tempoEventOrd c3wtm.events :=
  ⟨by decide, c3_events_ordered c3wbms c3wtm (by decide) (by decide) (by decide)
    (by decide) (by decide)⟩
